import Mathlib

/-!
# SimpleSmartLoader: a shallow embedding

The development follows `SimpleSmartLoader.c`: a demand-paged loader for
32-bit ELF images.  C functions that touch the globals become functions on an
explicit `Loader` record; the calls into the operating system (`malloc`,
`lseek`, `read`, `mmap`, `exit`) are recorded in a trace of `Event`s, with the
answers of the operating system (allocation success, mapping success, the
file's bytes) passed in as inputs.  Of the console output only the three numbers the
handler prints about the faulting segment are recorded.

The calls whose result the C code checks (`open`, `malloc`, `mmap`, the reads of the
headers) can fail.  So can `lseek`, whose result the code never inspects: an offset that
is negative once converted to `off_t` makes it fail and leaves the file position where it
was.

Machine integers are natural numbers (or integers, for `int`) with the
reduction modulo `2^32` or `2^w` written out; `w` is the number of bits of
`size_t` and `uintptr_t`, which the C sources leave to the platform
(`w = 32` on the ILP32 target that can run the 32-bit image in-process).  The
sources define no `_FILE_OFFSET_BITS`, so `off_t` is a `long` and has `w` bits as well.
-/

namespace SmartLoader

/-! ## Machine arithmetic -/

/-- Addition of two `uint32_t` values (`Elf32_Addr`, `Elf32_Word`, `Elf32_Off`). -/
def add32 (a b : Nat) : Nat := (a + b) % 2 ^ 32

/-- Subtraction of two `uint32_t` values, wrapping modulo `2^32`. -/
def sub32 (a b : Nat) : Nat := (a % 2 ^ 32 + (2 ^ 32 - b % 2 ^ 32)) % 2 ^ 32

/-- Conversion of an unsigned 32-bit value to `int` (two's complement, as gcc does). -/
def toI32 (x : Nat) : Int :=
  if x % 2 ^ 32 < 2 ^ 31 then ((x % 2 ^ 32 : Nat) : Int) else ((x % 2 ^ 32 : Nat) : Int) - 2 ^ 32

/-- Conversion of an `int` to `unsigned int` (reduction modulo `2^32`). -/
def toU32 (z : Int) : Nat := (z % 2 ^ 32).toNat

/-- Largest value of `int`. -/
def INT_MAX : Int := 2147483647

/-- Addition in `size_t` (`w` bits). -/
def addw (w a b : Nat) : Nat := (a + b) % 2 ^ w

/-- Subtraction in `size_t` (`w` bits), wrapping modulo `2^w`. -/
def subw (w a b : Nat) : Nat := (a % 2 ^ w + (2 ^ w - b % 2 ^ w)) % 2 ^ w

/-- Multiplication in `size_t` (`w` bits). -/
def mulw (w a b : Nat) : Nat := (a * b) % 2 ^ w

/-- Bitwise complement in `size_t` (`w` bits). -/
def notw (w a : Nat) : Nat := 2 ^ w - 1 - a % 2 ^ w

/-- The global `size_t page_size = 4096;` (never assigned again). -/
def page_size : Nat := 4096

/-! ## Fragmentation arithmetic (`load_and_run_elf` lines 106-108, `segfault_handler` lines 140-142) -/

/-- The statement `size_t num_pages = (segment_size + page_size - 1) / page_size;`. -/
def num_pages (w segment_size : Nat) : Nat :=
  subw w (addw w segment_size page_size) 1 / page_size

/-- The statement `size_t fragmentation = num_pages * page_size - segment_size;`. -/
def fragmentation (w segment_size : Nat) : Nat :=
  subw w (mulw w (num_pages w segment_size) page_size) segment_size

/-! ## ELF32 data model -/

/-- A byte of the executable file. -/
abbrev Byte := Fin 256

/-- Modelled from the spec: `PT_LOAD` of `<elf.h>` (a system header, not part of the
repository); the program-header type of a loadable segment. -/
def PT_LOAD : Nat := 1

/-- Modelled from the spec: `ELFCLASS32` of `<elf.h>`, the 32-bit class tag. -/
def ELFCLASS32 : Nat := 1

/-- Modelled from the spec: `EI_CLASS` of `<elf.h>`, the index of the class byte in `e_ident`. -/
def EI_CLASS : Nat := 4

/-- Modelled from the spec: `sizeof(Elf32_Ehdr)` for the standard ELF32 layout. -/
def sizeof_Elf32_Ehdr : Nat := 52

/-- Modelled from the spec: `sizeof(Elf32_Phdr)` for the standard ELF32 layout. -/
def sizeof_Elf32_Phdr : Nat := 32

/-- Modelled from the spec: `Elf32_Ehdr` of `<elf.h>`, the standard ELF32 header
(`e_ident[16]`, then half-words and words in this order). -/
structure Elf32_Ehdr where
  e_ident : List Byte
  e_type : Nat
  e_machine : Nat
  e_version : Nat
  e_entry : Nat
  e_phoff : Nat
  e_shoff : Nat
  e_flags : Nat
  e_ehsize : Nat
  e_phentsize : Nat
  e_phnum : Nat
  e_shentsize : Nat
  e_shnum : Nat
  e_shstrndx : Nat
  deriving DecidableEq, Repr

/-- Modelled from the spec: `Elf32_Phdr` of `<elf.h>`, one entry of the ELF32
program header table (eight 32-bit words in this order). -/
structure Elf32_Phdr where
  p_type : Nat
  p_offset : Nat
  p_vaddr : Nat
  p_paddr : Nat
  p_filesz : Nat
  p_memsz : Nat
  p_flags : Nat
  p_align : Nat
  deriving DecidableEq, Repr

/-- The byte at index `k` of a buffer, as a number. -/
def byteAt (b : List Byte) (k : Nat) : Nat := (b.getD k 0).val

/-- A little-endian 16-bit field at offset `k` (the host is x86). -/
def le16 (b : List Byte) (k : Nat) : Nat := byteAt b k + 256 * byteAt b (k + 1)

/-- A little-endian 32-bit field at offset `k`. -/
def le32 (b : List Byte) (k : Nat) : Nat :=
  byteAt b k + 256 * byteAt b (k + 1) + 65536 * byteAt b (k + 2) + 16777216 * byteAt b (k + 3)

/-- Modelled from the spec: the view of 52 raw bytes as an `Elf32_Ehdr`, which the C
code obtains by reading the file straight into the struct. -/
def decode_Ehdr (b : List Byte) : Elf32_Ehdr :=
  { e_ident := b.take 16
    e_type := le16 b 16
    e_machine := le16 b 18
    e_version := le32 b 20
    e_entry := le32 b 24
    e_phoff := le32 b 28
    e_shoff := le32 b 32
    e_flags := le32 b 36
    e_ehsize := le16 b 40
    e_phentsize := le16 b 42
    e_phnum := le16 b 44
    e_shentsize := le16 b 46
    e_shnum := le16 b 48
    e_shstrndx := le16 b 50 }

/-- Modelled from the spec: the view of 32 raw bytes as an `Elf32_Phdr`. -/
def decode_Phdr (b : List Byte) : Elf32_Phdr :=
  { p_type := le32 b 0
    p_offset := le32 b 4
    p_vaddr := le32 b 8
    p_paddr := le32 b 12
    p_filesz := le32 b 16
    p_memsz := le32 b 20
    p_flags := le32 b 24
    p_align := le32 b 28 }

/-- The segment table held in a buffer of `n * sizeof(Elf32_Phdr)` bytes: `phdr[0..n)`. -/
def decode_Phdrs (b : List Byte) (n : Nat) : List Elf32_Phdr :=
  (List.range n).map (fun j => decode_Phdr (b.drop (sizeof_Elf32_Phdr * j)))

/-! ## The operating system as seen by the loader -/

/-- The open file behind the descriptor `fd`: its bytes and the current position. -/
structure File where
  bytes : List Byte
  pos : Nat
  deriving DecidableEq, Repr

/-- Conversion of an unsigned value to `off_t`, a signed type of `o` bits: the value is
reduced modulo `2^o` and read in two's complement. -/
def toOff (o v : Nat) : Int :=
  if v % 2 ^ o < 2 ^ (o - 1) then ((v % 2 ^ o : Nat) : Int) else ((v % 2 ^ o : Nat) : Int) - 2 ^ o

/-- The call `lseek(fd, off, SEEK_SET)` with `off` an `off_t`: a negative offset is refused
(`EINVAL`) and the position stays where it was; otherwise the position becomes `off`. -/
def File.lseek (f : File) (off : Int) : File :=
  if off < 0 then f else { f with pos := off.toNat }

/-- The call `read(fd, buf, n)` on a regular file: the bytes from the current position, at most `n`
and at most what is left, and the file with the position advanced. -/
def File.read (f : File) (n : Nat) : List Byte × File :=
  let got := (f.bytes.drop f.pos).take n
  (got, { f with pos := f.pos + got.length })

/-- A call into the operating system, with its arguments and what came back. -/
inductive Event where
  | sys_open (ok : Bool)
  | sys_malloc (size : Nat) (ok : Bool)
  | sys_free
  | sys_lseek (offset : Nat)
  | sys_read (count : Nat) (ret : Nat)
  | sys_mmap (addr : Nat) (length : Nat) (ok : Bool)
  | sys_exit (status : Nat)
  | print_segment_size (bytes : Nat)
  | print_num_pages (pages : Nat)
  | print_fragmentation (bytes : Nat)
  deriving DecidableEq, Repr

/-- How a C function ends: it returns, the process ends in `exit(status)`, or the
behaviour is undefined in C (out-of-bounds read, signed overflow). -/
inductive Outcome (α : Type) where
  | ret (a : α)
  | exit (status : Nat)
  | undefined
  deriving DecidableEq, Repr

/-- A run of a loading function: the calls made, in order, and how it ended. -/
structure Run (α : Type) where
  trace : List Event
  out : Outcome α
  deriving DecidableEq, Repr

/-- Answers of the allocator: whether `malloc(size)` returns a non-null pointer. -/
structure Env where
  malloc_ok : Nat → Bool

/-- The loader's globals once the headers are in memory: `ehdr`, `phdr`, `fd`, `i`,
`entry_pt`, `page_faults`, `pages_allocated`. -/
structure Loader where
  ehdr : Elf32_Ehdr
  phdr : List Elf32_Phdr
  fd : File
  i : Nat
  entry_pt : Nat
  page_faults : Int
  pages_allocated : Int
  deriving DecidableEq, Repr

/-! ## `is_elf32`, `load_ehdr`, `load_phdr` -/

/-- The function `is_elf32`: `ehdr->e_ident[EI_CLASS] == ELFCLASS32`. -/
def is_elf32 (ehdr : Elf32_Ehdr) : Bool := byteAt ehdr.e_ident EI_CLASS == ELFCLASS32

/-- The function `load_ehdr`: allocate the header, seek to 0, read `sizeof(Elf32_Ehdr)` bytes, check the class. -/
def load_ehdr (env : Env) (fd : File) : Run (Elf32_Ehdr × File) :=
  let sizeofehdr := sizeof_Elf32_Ehdr
  if !env.malloc_ok sizeofehdr then
    ⟨[.sys_malloc sizeofehdr false, .sys_exit 1], .exit 1⟩
  else
    let fd1 := fd.lseek 0
    let r := fd1.read sizeofehdr
    if r.1.length ≠ sizeofehdr then
      ⟨[.sys_malloc sizeofehdr true, .sys_lseek 0, .sys_read sizeofehdr r.1.length, .sys_exit 1], .exit 1⟩
    else
      let ehdr := decode_Ehdr r.1
      if !is_elf32 ehdr then
        ⟨[.sys_malloc sizeofehdr true, .sys_lseek 0, .sys_read sizeofehdr r.1.length, .sys_free,
          .sys_exit 1], .exit 1⟩
      else
        ⟨[.sys_malloc sizeofehdr true, .sys_lseek 0, .sys_read sizeofehdr r.1.length], .ret (ehdr, r.2)⟩

/-- The function `load_phdr`: allocate `sizeof(Elf32_Phdr) * e_phnum` bytes, seek to `e_phoff`
(converted to an `off_t` of `w` bits, the result of `lseek` unchecked), read that many bytes. -/
def load_phdr (w : Nat) (env : Env) (fd : File) (ehdr : Elf32_Ehdr) :
    Run (List Elf32_Phdr × File) :=
  let sizeofphdr := sizeof_Elf32_Phdr
  if !env.malloc_ok (sizeofphdr * ehdr.e_phnum) then
    ⟨[.sys_malloc (sizeofphdr * ehdr.e_phnum) false, .sys_exit 1], .exit 1⟩
  else
    let fd1 := fd.lseek (toOff w ehdr.e_phoff)
    let r := fd1.read (sizeofphdr * ehdr.e_phnum)
    if r.1.length ≠ sizeofphdr * ehdr.e_phnum then
      ⟨[.sys_malloc (sizeofphdr * ehdr.e_phnum) true, .sys_lseek ehdr.e_phoff,
        .sys_read (sizeofphdr * ehdr.e_phnum) r.1.length, .sys_exit 1], .exit 1⟩
    else
      ⟨[.sys_malloc (sizeofphdr * ehdr.e_phnum) true, .sys_lseek ehdr.e_phoff,
        .sys_read (sizeofphdr * ehdr.e_phnum) r.1.length], .ret (decode_Phdrs r.1 ehdr.e_phnum, r.2)⟩

/-! ## `find_entry_pt` -/

/-- The `for` loop of `find_entry_pt`, with `k = e_phnum - i` iterations still to run.
`min` is an `int`; the comparison `min > e_entry - p_vaddr` is made in `unsigned int`
because the right-hand side is an `Elf32_Addr`, and the assignment converts back. -/
def find_entry_loop (ehdr : Elf32_Ehdr) (phdr : List Elf32_Phdr) :
    Nat → Nat → Int → Nat → Outcome (Int × Nat)
  | 0, _, min, min_entrypoint => .ret (min, min_entrypoint)
  | k + 1, i, min, min_entrypoint =>
    match phdr[i]? with
    | none => .undefined
    | some ph =>
      if ph.p_type = PT_LOAD then
        if toU32 min > sub32 ehdr.e_entry ph.p_vaddr then
          find_entry_loop ehdr phdr k (i + 1) (toI32 (sub32 ehdr.e_entry ph.p_vaddr)) i
        else find_entry_loop ehdr phdr k (i + 1) min min_entrypoint
      else find_entry_loop ehdr phdr k (i + 1) min min_entrypoint

/-- The function `find_entry_pt`: `min_entrypoint = 0`, `min = 0xFFFFFFFF`, the loop, then
`i = min_entrypoint; entry_pt = phdr[i].p_vaddr;`. -/
def find_entry_pt (s : Loader) : Outcome Loader :=
  match find_entry_loop s.ehdr s.phdr s.ehdr.e_phnum 0 (toI32 0xFFFFFFFF) 0 with
  | .ret (_, min_entrypoint) =>
    match s.phdr[min_entrypoint]? with
    | none => .undefined
    | some ph => .ret { s with i := min_entrypoint, entry_pt := ph.p_vaddr }
  | .exit st => .exit st
  | .undefined => .undefined

/-! ## `load_and_run_elf`, up to the call of `_start` -/

/-- What `load_and_run_elf` holds when it calls `_start`: the globals, the fragmentation
of the final report and the address it jumps to. -/
structure Launch where
  loader : Loader
  fragmentation : Nat
  entry_virtual : Nat
  deriving DecidableEq, Repr

/-- The function `load_and_run_elf` up to the transfer of control; `exe` is `none` when the file cannot
be opened. -/
def load_and_run_elf (w : Nat) (env : Env) (exe : Option (List Byte)) : Run Launch :=
  match exe with
  | none => ⟨[.sys_open false, .sys_exit 1], .exit 1⟩
  | some bytes =>
    let r1 := load_ehdr env ⟨bytes, 0⟩
    match r1.out with
    | .exit st => ⟨.sys_open true :: r1.trace, .exit st⟩
    | .undefined => ⟨.sys_open true :: r1.trace, .undefined⟩
    | .ret (ehdr, fd1) =>
      let r2 := load_phdr w env fd1 ehdr
      match r2.out with
      | .exit st => ⟨.sys_open true :: (r1.trace ++ r2.trace), .exit st⟩
      | .undefined => ⟨.sys_open true :: (r1.trace ++ r2.trace), .undefined⟩
      | .ret (phdr, fd2) =>
        let tr := .sys_open true :: (r1.trace ++ r2.trace)
        match find_entry_pt ⟨ehdr, phdr, fd2, 0, 0, 0, 0⟩ with
        | .exit st => ⟨tr, .exit st⟩
        | .undefined => ⟨tr, .undefined⟩
        | .ret s =>
          match s.phdr[s.i]? with
          | none => ⟨tr, .undefined⟩
          | some ph =>
            let segment_size := ph.p_memsz
            let offset := sub32 s.ehdr.e_entry s.entry_pt
            ⟨tr, .ret ⟨s, fragmentation w segment_size, add32 s.entry_pt offset⟩⟩

/-! ## `segfault_handler` -/

/-- A run of the handler: the calls made, the globals at the end, and how it ended. -/
structure HandlerRun where
  trace : List Event
  final : Loader
  status : Outcome Unit
  deriving DecidableEq, Repr

/-- The condition of the `if` in the handler's loop: `phdr[i].p_type == PT_LOAD &&
fault_addr >= phdr[i].p_vaddr && fault_addr < phdr[i].p_vaddr + phdr[i].p_memsz`, the sum
being one of two `uint32_t` values. -/
def segment_matches (ph : Elf32_Phdr) (fault_addr : Nat) : Prop :=
  ph.p_type = PT_LOAD ∧ fault_addr ≥ ph.p_vaddr ∧ fault_addr < add32 ph.p_vaddr ph.p_memsz

instance (ph : Elf32_Phdr) (fault_addr : Nat) : Decidable (segment_matches ph fault_addr) := by
  unfold segment_matches
  infer_instance

/-- The expression `(uintptr_t)fault_addr & ~(page_size - 1)`. -/
def page_start (w fault_addr : Nat) : Nat := fault_addr &&& notw w (page_size - 1)

/-- The expression `phdr[i].p_vaddr & ~(page_size - 1)`. -/
def segment_addr (w : Nat) (ph : Elf32_Phdr) : Nat := ph.p_vaddr &&& notw w (page_size - 1)

/-- The statement `size_t offset = (uintptr_t)page_start - (uintptr_t)segment_addr;`. -/
def page_offset (w : Nat) (ph : Elf32_Phdr) (fault_addr : Nat) : Nat :=
  subw w (page_start w fault_addr) (segment_addr w ph)

/-- The position passed to `lseek`: `phdr[i].p_offset + offset`, a sum in `size_t` (which
the call then converts to `off_t`). -/
def fill_position (w : Nat) (ph : Elf32_Phdr) (fault_addr : Nat) : Nat :=
  addw w ph.p_offset (page_offset w ph fault_addr)

/-- The body of the `if` in `segfault_handler` for the matching entry `ph = phdr[i]`:
the segment's size, page count and fragmentation (printed), page alignment, `mmap` of one
page, `lseek` and `read` into it, both counters incremented, return.  Incrementing an
`int` that holds `INT_MAX` is undefined. -/
def service_fault (w : Nat) (s : Loader) (ph : Elf32_Phdr) (fault_addr : Nat) (mmap_ok : Bool) :
    HandlerRun :=
  let segment_size := ph.p_memsz
  if !mmap_ok then
    ⟨[.print_segment_size segment_size, .print_num_pages (num_pages w segment_size),
      .sys_mmap (page_start w fault_addr) page_size false, .sys_exit 1], s, .exit 1⟩
  else
    let r := (s.fd.lseek (toOff w (fill_position w ph fault_addr))).read page_size
    let tr := [.print_segment_size segment_size, .print_num_pages (num_pages w segment_size),
      .sys_mmap (page_start w fault_addr) page_size true,
      .sys_lseek (fill_position w ph fault_addr), .sys_read page_size r.1.length,
      .print_fragmentation (fragmentation w segment_size)]
    if s.page_faults ≥ INT_MAX then
      ⟨tr, { s with fd := r.2 }, .undefined⟩
    else if s.pages_allocated ≥ INT_MAX then
      ⟨tr, { s with fd := r.2, page_faults := s.page_faults + 1 }, .undefined⟩
    else
      ⟨tr, { s with fd := r.2, page_faults := s.page_faults + 1,
                    pages_allocated := s.pages_allocated + 1 }, .ret ()⟩

/-- The `for` loop of `segfault_handler` over the global `i`, with `k = e_phnum - i`
iterations still to run; falling out of the loop is the `exit(1)` after it. -/
def segfault_loop (w : Nat) (s : Loader) (fault_addr : Nat) (mmap_ok : Bool) :
    Nat → Nat → HandlerRun
  | 0, i => ⟨[.sys_exit 1], { s with i := i }, .exit 1⟩
  | k + 1, i =>
    match s.phdr[i]? with
    | none => ⟨[], { s with i := i }, .undefined⟩
    | some ph =>
      if segment_matches ph fault_addr then
        service_fault w { s with i := i } ph fault_addr mmap_ok
      else segfault_loop w s fault_addr mmap_ok k (i + 1)

/-- The function `segfault_handler`: `fault_addr = (Elf32_Addr)info->si_addr`, then the scan
of the segment table.  `mmap_ok` tells whether the mapping request succeeds. -/
def segfault_handler (w : Nat) (s : Loader) (si_addr : Nat) (mmap_ok : Bool) : HandlerRun :=
  segfault_loop w s (si_addr % 2 ^ 32) mmap_ok s.ehdr.e_phnum 0

/-- The run of the handler with no matching entry: only `exit(1)`, the globals untouched
except the loop variable `i`. -/
def no_match_run (s : Loader) (i : Nat) : HandlerRun :=
  ⟨[.sys_exit 1], { s with i := i }, .exit 1⟩

/-- Entry `ph = phdr[j]` is the first entry of the table, in table order, on which the
handler's condition holds for the fault address `A`. -/
def first_match (s : Loader) (A j : Nat) (ph : Elf32_Phdr) : Prop :=
  s.phdr[j]? = some ph ∧ segment_matches ph A ∧ ∀ ph' ∈ s.phdr.take j, ¬ segment_matches ph' A

instance (s : Loader) (A j : Nat) (ph : Elf32_Phdr) : Decidable (first_match s A j ph) := by
  unfold first_match
  infer_instance

/-- The range test in the words of the specification: `ph` is a `LOAD` entry and the
address `a` lies in `[p_vaddr, p_vaddr + p_memsz)`, the sum taken over the integers. -/
def in_segment (ph : Elf32_Phdr) (a : Nat) : Prop :=
  ph.p_type = PT_LOAD ∧ ph.p_vaddr ≤ a ∧ a < ph.p_vaddr + ph.p_memsz

instance (ph : Elf32_Phdr) (a : Nat) : Decidable (in_segment ph a) := by
  unfold in_segment
  infer_instance

/-- A sequence of faults, each an address and whether its mapping request succeeds, handled
one after the other from state `s`; the run goes on only while the handler returns. -/
def run_faults (w : Nat) (s : Loader) : List (Nat × Bool) → Outcome Loader
  | [] => .ret s
  | (si_addr, mmap_ok) :: rest =>
    match (segfault_handler w s si_addr mmap_ok).status with
    | .ret _ => run_faults w (segfault_handler w s si_addr mmap_ok).final rest
    | .exit st => .exit st
    | .undefined => .undefined

/-- The segment table is the array of `e_phnum` entries that `load_phdr` builds. -/
def Loader.table_ok (s : Loader) : Prop := s.phdr.length = s.ehdr.e_phnum

instance (s : Loader) : Decidable s.table_ok := by
  unfold Loader.table_ok
  infer_instance

/-- Every address and size field of the entry fits its 32-bit type. -/
def Elf32_Phdr.fits32 (ph : Elf32_Phdr) : Prop :=
  ph.p_offset < 2 ^ 32 ∧ ph.p_vaddr < 2 ^ 32 ∧ ph.p_memsz < 2 ^ 32

instance (ph : Elf32_Phdr) : Decidable ph.fits32 := by
  unfold Elf32_Phdr.fits32
  infer_instance

/-! ## Example images -/

/-- A validated header: class byte `ELFCLASS32`, `e_entry = 0x3050`, two program headers
of 32 bytes at offset 52. -/
def example_ehdr : Elf32_Ehdr :=
  ⟨[0x7f, 0x45, 0x4c, 0x46, 1, 1, 1, 0, 0, 0, 0, 0, 0, 0, 0, 0],
    2, 3, 1, 0x3050, 52, 0, 0, 52, 32, 2, 0, 0, 0⟩

/-- The second segment of the example image: `LOAD`, file offset `0x2000`, addresses
`[0x3000, 0x5000)`. -/
def example_data : Elf32_Phdr := ⟨1, 0x2000, 0x3000, 0x3000, 0x2000, 0x2000, 6, 0x1000⟩

/-- A `LOAD` segment at `[0x1000, 0x3000)` whose file offset is the largest 32-bit value. -/
def far_segment : Elf32_Phdr := ⟨1, 0xFFFFFFFF, 0x1000, 0x1000, 0x2000, 0x2000, 5, 0x1000⟩

/-- The globals for an image whose only segment is `far_segment`. -/
def far_loader : Loader :=
  ⟨⟨[0x7f, 0x45, 0x4c, 0x46, 1, 1, 1, 0, 0, 0, 0, 0, 0, 0, 0, 0],
      2, 3, 1, 0x1000, 52, 0, 0, 52, 32, 1, 0, 0, 0⟩, [far_segment], ⟨[], 0⟩, 0, 0x1000, 0, 0⟩

/-- Two `LOAD` segments with bases `0x1000` and `0x3000`, the table of the specification's
entry-point example: `[0x1000, 0x1100)` and `[0x3000, 0x5000)`. -/
def example_phdr : List Elf32_Phdr :=
  [⟨1, 0x1000, 0x1000, 0x1000, 0x100, 0x100, 5, 0x1000⟩, example_data]

/-- The globals after loading the example image, before any fault. -/
def example_loader : Loader := ⟨example_ehdr, example_phdr, ⟨[], 0⟩, 1, 0x3000, 0, 0⟩

/-- The example image after `INT_MAX` serviced faults: both counters hold `INT_MAX`. -/
def saturated_loader : Loader :=
  ⟨example_ehdr, example_phdr, ⟨[], 0⟩, 1, 0x3000, 2147483647, 2147483647⟩

/-- An image whose entry address `0xFFF` is one byte below its only `LOAD` segment
`[0x1000, 0x2000)`, listed after a `PT_NOTE` entry (type 4). -/
def note_first_loader : Loader :=
  ⟨⟨[0x7f, 0x45, 0x4c, 0x46, 1, 1, 1, 0, 0, 0, 0, 0, 0, 0, 0, 0],
      2, 3, 1, 0xFFF, 52, 0, 0, 52, 32, 2, 0, 0, 0⟩,
    [⟨4, 0x100, 0x100, 0x100, 0x20, 0x20, 4, 4⟩, ⟨1, 0x1000, 0x1000, 0x1000, 0x1000, 0x1000, 5, 0x1000⟩],
    ⟨[], 0⟩, 0, 0, 0, 0⟩

/-- An image whose entry address `0x10` is below its only `LOAD` segment `[0x1000, 0x2000)`. -/
def low_entry_loader : Loader :=
  ⟨⟨[0x7f, 0x45, 0x4c, 0x46, 1, 1, 1, 0, 0, 0, 0, 0, 0, 0, 0, 0],
      2, 3, 1, 0x10, 52, 0, 0, 52, 32, 1, 0, 0, 0⟩,
    [⟨1, 0x1000, 0x1000, 0x1000, 0x1000, 0x1000, 5, 0x1000⟩], ⟨[], 0⟩, 0, 0, 0, 0⟩

/-- An allocator that never fails. -/
def generous_env : Env := ⟨fun _ => true⟩

/-- A file of 84 bytes: a 32-bit header declaring `e_phoff = 52`, `e_phnum = 1` and
`e_phentsize = 64`, followed by one 32-byte `LOAD` entry for `[0x3000, 0x4000)`. -/
def wide_entry_file : List Byte :=
  [
    127, 69, 76, 70, 1, 1, 1, 0, 0, 0, 0, 0, 0, 0, 0, 0,
    2, 0, 3, 0, 1, 0, 0, 0, 80, 48, 0, 0, 52, 0, 0, 0,
    0, 0, 0, 0, 0, 0, 0, 0, 52, 0, 64, 0, 1, 0, 40, 0,
    0, 0, 0, 0, 1, 0, 0, 0, 0, 0, 0, 0, 0, 48, 0, 0,
    0, 48, 0, 0, 84, 0, 0, 0, 0, 16, 0, 0, 5, 0, 0, 0,
    0, 16, 0, 0]

/-- A file of 84 bytes: a 32-bit header with `e_entry = 0x10`, followed by one `LOAD` entry
for `[0x1000, 0x2000)`, which lies above the entry address. -/
def low_entry_file : List Byte :=
  [
    127, 69, 76, 70, 1, 1, 1, 0, 0, 0, 0, 0, 0, 0, 0, 0,
    2, 0, 3, 0, 1, 0, 0, 0, 16, 0, 0, 0, 52, 0, 0, 0,
    0, 0, 0, 0, 0, 0, 0, 0, 52, 0, 32, 0, 1, 0, 40, 0,
    0, 0, 0, 0, 1, 0, 0, 0, 0, 0, 0, 0, 0, 16, 0, 0,
    0, 16, 0, 0, 84, 0, 0, 0, 0, 16, 0, 0, 5, 0, 0, 0,
    0, 16, 0, 0]

/-- A file of 64 bytes whose class byte is 2 (`ELFCLASS64`). -/
def class64_file : List Byte :=
  [
    127, 69, 76, 70, 2, 1, 1, 0, 0, 0, 0, 0, 0, 0, 0, 0,
    2, 0, 62, 0, 1, 0, 0, 0, 0, 0, 0, 0, 0, 0, 0, 0,
    0, 0, 0, 0, 0, 0, 0, 0, 0, 0, 0, 0, 0, 0, 0, 0,
    0, 0, 0, 0, 0, 0, 0, 0, 0, 0, 0, 0, 0, 0, 0, 0]

/-- A file of 84 bytes: a 32-bit header declaring `e_phoff = 0x80000034` and `e_phnum = 1`,
followed at offset 52 by one 32-byte `LOAD` entry for `[0x3000, 0x4000)`. -/
def far_phoff_file : List Byte :=
  [
    127, 69, 76, 70, 1, 1, 1, 0, 0, 0, 0, 0, 0, 0, 0, 0,
    2, 0, 3, 0, 1, 0, 0, 0, 80, 48, 0, 0, 52, 0, 0, 128,
    0, 0, 0, 0, 0, 0, 0, 0, 52, 0, 32, 0, 1, 0, 40, 0,
    0, 0, 0, 0, 1, 0, 0, 0, 0, 0, 0, 0, 0, 48, 0, 0,
    0, 48, 0, 0, 84, 0, 0, 0, 0, 16, 0, 0, 5, 0, 0, 0,
    0, 16, 0, 0]

/-! ## Machine arithmetic without wrap-around -/

theorem two_pow_le_of_le {w : Nat} (hw : 32 ≤ w) : 2 ^ 32 ≤ 2 ^ w :=
  Nat.pow_le_pow_right (by decide) hw

theorem addw_eq_of_lt {w a b : Nat} (h : a + b < 2 ^ w) : addw w a b = a + b := by
  unfold addw
  exact Nat.mod_eq_of_lt h

theorem mulw_eq_of_lt {w a b : Nat} (h : a * b < 2 ^ w) : mulw w a b = a * b := by
  unfold mulw
  exact Nat.mod_eq_of_lt h

theorem subw_eq_of_le {w a b : Nat} (hab : b ≤ a) (ha : a < 2 ^ w) : subw w a b = a - b := by
  unfold subw
  have hb : b < 2 ^ w := lt_of_le_of_lt hab ha
  rw [Nat.mod_eq_of_lt ha, Nat.mod_eq_of_lt hb]
  have h : a + (2 ^ w - b) = 2 ^ w + (a - b) := by omega
  rw [h, Nat.add_mod_left]
  exact Nat.mod_eq_of_lt (by omega)

/-- Either `size_t` has exactly 32 bits or it holds every sum of two 32-bit values. -/
theorem width_cases {w : Nat} (hw : 32 ≤ w) : w = 32 ∨ 2 ^ 33 ≤ 2 ^ w := by
  rcases Nat.eq_or_lt_of_le hw with h | h
  · exact Or.inl h.symm
  · exact Or.inr (Nat.pow_le_pow_right (by decide) h)

/-- The page count without wrap-around is the rounded-up quotient. -/
theorem num_pages_eq_of_lt {w S : Nat} (h : S + page_size - 1 < 2 ^ w) (hw : 32 ≤ w)
    (hS : S < 2 ^ 32) :
    num_pages w S = (S + 4095) / 4096 := by
  have h32 := two_pow_le_of_le hw
  unfold page_size at h
  rcases width_cases hw with rfl | h33
  · simp only [num_pages, subw, addw, page_size]
    norm_num at h hS ⊢
    omega
  · have h1 : S + 4096 < 2 ^ w := by omega
    simp only [num_pages, page_size]
    rw [addw_eq_of_lt h1, subw_eq_of_le (by omega) h1]
    rfl

theorem ceil_div_page (S : Nat) : ⌈(S : ℚ) / (page_size : ℚ)⌉₊ = (S + 4095) / 4096 := by
  apply eq_of_forall_ge_iff
  intro n
  rw [Nat.ceil_le, div_le_iff₀ (by norm_num [page_size])]
  have : ((S : ℚ) ≤ (n : ℚ) * (page_size : ℚ)) ↔ S ≤ n * page_size := by
    rw [← Nat.cast_mul, Nat.cast_le]
  rw [this]
  unfold page_size
  omega

theorem fragmentation_bounds {w S : Nat} (hw : 32 ≤ w) (hS : S < 2 ^ 32) :
    fragmentation w S < page_size ∧ (S + fragmentation w S) % page_size = 0 ∧
      (fragmentation w S = 0 ↔ S % page_size = 0) := by
  have h32 := two_pow_le_of_le hw
  rcases width_cases hw with rfl | h33
  · simp only [fragmentation, num_pages, subw, addw, mulw, page_size]
    norm_num at hS ⊢
    omega
  · have h1 : S + page_size - 1 < 2 ^ w := by unfold page_size; omega
    have hn := num_pages_eq_of_lt h1 hw hS
    have h2 : (S + 4095) / 4096 * 4096 < 2 ^ w := by omega
    simp only [fragmentation, page_size]
    rw [hn, mulw_eq_of_lt h2, subw_eq_of_le (by omega) h2]
    omega

/-! ## C6: fragmentation arithmetic -/

/-- The fragmentation `load_and_run_elf` reports is the formula applied to `phdr[i].p_memsz`. -/
theorem launch_fragmentation (w : Nat) (env : Env) (exe : Option (List Byte)) (L : Launch)
    (h : (load_and_run_elf w env exe).out = .ret L) :
    ∃ ph, L.loader.phdr[L.loader.i]? = some ph ∧ L.fragmentation = fragmentation w ph.p_memsz := by
  unfold load_and_run_elf at h
  split at h
  · simp at h
  · simp only at h
    split at h
    · simp at h
    · simp at h
    · split at h
      · simp at h
      · simp at h
      · split at h
        · simp at h
        · simp at h
        · split at h
          · simp at h
          · rename_i s _ ph hph
            simp only [Outcome.ret.injEq] at h
            subst h
            exact ⟨ph, hph, rfl⟩

/-- The fragmentation the handler prints for a serviced fault is the same formula applied
to the matching segment's `p_memsz`. -/
theorem service_fault_prints (w : Nat) (s : Loader) (ph : Elf32_Phdr) (A : Nat) :
    Event.print_fragmentation (fragmentation w ph.p_memsz) ∈ (service_fault w s ph A true).trace := by
  unfold service_fault
  simp only [Bool.not_true, Bool.false_eq_true, if_false]
  split
  · simp
  · split <;> simp

/-- C6 (amended): for every 32-bit segment size `S` and a `size_t` of `w ≥ 32` bits, the
fragmentation computed by the code is below the page size, makes `S + fragmentation` a
multiple of the page size, and is zero exactly when `S` is a multiple of the page size;
when `S + page_size - 1` does not wrap in `size_t`, `num_pages` is the ceiling of
`S / page_size` and `fragmentation = num_pages * page_size - S` over the integers; for
`S = 5000` this gives 2 pages and 3192 bytes; `load_and_run_elf` and `segfault_handler`
apply the same formula to the segment's `p_memsz`. -/
theorem fragmentation_arithmetic (w S : Nat) (hw : 32 ≤ w) (hS : S < 2 ^ 32) :
    (fragmentation w S < page_size ∧ (S + fragmentation w S) % page_size = 0 ∧
      (fragmentation w S = 0 ↔ S % page_size = 0)) ∧
    (S + page_size - 1 < 2 ^ w →
      num_pages w S = ⌈(S : ℚ) / (page_size : ℚ)⌉₊ ∧
      S ≤ num_pages w S * page_size ∧
      fragmentation w S = num_pages w S * page_size - S) ∧
    (num_pages w 5000 = 2 ∧ fragmentation w 5000 = 3192) ∧
    (∀ (s : Loader) (ph : Elf32_Phdr) (A : Nat),
      Event.print_fragmentation (fragmentation w ph.p_memsz) ∈
        (service_fault w s ph A true).trace) ∧
    (∀ (env : Env) (exe : Option (List Byte)) (L : Launch),
      (load_and_run_elf w env exe).out = .ret L →
      ∃ ph, L.loader.phdr[L.loader.i]? = some ph ∧
        L.fragmentation = fragmentation w ph.p_memsz) := by
  have h32 := two_pow_le_of_le hw
  have key : ∀ T : Nat, T < 2 ^ 32 → T + page_size - 1 < 2 ^ w →
      num_pages w T = (T + 4095) / 4096 ∧ T ≤ num_pages w T * page_size ∧
      fragmentation w T = num_pages w T * page_size - T := by
    intro T hT h
    have hn := num_pages_eq_of_lt h hw hT
    unfold page_size at h
    have h2 : (T + 4095) / 4096 * 4096 < 2 ^ w := by
      rcases width_cases hw with rfl | h33
      · norm_num at h hT ⊢
        omega
      · omega
    refine ⟨hn, ?_, ?_⟩
    · rw [hn]; unfold page_size; omega
    · simp only [fragmentation, page_size]
      rw [hn, mulw_eq_of_lt h2, subw_eq_of_le (by omega) h2]
  refine ⟨fragmentation_bounds hw hS, ?_, ?_, service_fault_prints w, launch_fragmentation w⟩
  · intro h
    obtain ⟨k1, k2, k3⟩ := key S hS h
    exact ⟨by rw [ceil_div_page, k1], k2, k3⟩
  · have h5 : 5000 + page_size - 1 < 2 ^ w := by unfold page_size; omega
    obtain ⟨k1, _, k3⟩ := key 5000 (by norm_num) h5
    refine ⟨k1, ?_⟩
    rw [k3, k1]
    rfl

/-- C6 witness: a 32-bit `size_t` and the 5000-byte segment of the specification. -/
theorem fragmentation_arithmetic_witness :
    (32 ≤ 32 ∧ 5000 < 2 ^ 32) ∧ fragmentation 32 5000 = 3192 ∧
      (5000 + fragmentation 32 5000) % page_size = 0 :=
  ⟨by decide, (fragmentation_arithmetic 32 5000 (by decide) (by decide)).2.2.1.2,
    (fragmentation_arithmetic 32 5000 (by decide) (by decide)).1.2.1⟩

/-- C6 counterexample: with a 32-bit `size_t` and `p_memsz = 0xFFFFFFFF` the sum
`segment_size + page_size - 1` wraps, so the code computes 0 pages, not the ceiling
`2^20`, and `num_pages * page_size - S` is not the printed fragmentation. -/
theorem num_pages_wraps_at_top :
    num_pages 32 4294967295 = 0 ∧
      ⌈((4294967295 : ℕ) : ℚ) / (page_size : ℚ)⌉₊ = 1048576 ∧
      fragmentation 32 4294967295 = 1 ∧
      ¬ (num_pages 32 4294967295 = ⌈((4294967295 : ℕ) : ℚ) / (page_size : ℚ)⌉₊) := by
  have h1 : num_pages 32 4294967295 = 0 := by decide
  have h2 : ⌈((4294967295 : ℕ) : ℚ) / (page_size : ℚ)⌉₊ = 1048576 := by
    rw [ceil_div_page]
  refine ⟨h1, h2, by decide, ?_⟩
  rw [h1, h2]
  decide

/-! ## Page alignment -/

/-- The mask `~(page_size - 1)` in a `size_t` of at least 32 bits. -/
theorem notw_page_mask {w : Nat} (hw : 32 ≤ w) :
    notw w (page_size - 1) = 2 ^ 12 * (2 ^ (w - 12) - 1) := by
  have h32 := two_pow_le_of_le hw
  have hsplit : 2 ^ w = 2 ^ 12 * 2 ^ (w - 12) := by
    rw [← pow_add]
    congr 1
    omega
  unfold notw page_size
  rw [Nat.mod_eq_of_lt (by omega), Nat.mul_sub, ← hsplit]
  norm_num
  omega

/-- Masking with `~(page_size - 1)` rounds a value that fits `size_t` down to its page. -/
theorem land_page_mask {w x : Nat} (hw : 32 ≤ w) (hx : x < 2 ^ w) :
    x &&& notw w (page_size - 1) = x - x % page_size := by
  have hr : x - x % page_size = 2 ^ 12 * (x >>> 12) := by
    rw [Nat.shiftRight_eq_div_pow]
    unfold page_size
    norm_num
    omega
  rw [notw_page_mask hw, hr]
  apply Nat.eq_of_testBit_eq
  intro j
  rw [Nat.testBit_and, Nat.testBit_mul_pow_two, Nat.testBit_mul_pow_two,
    Nat.testBit_two_pow_sub_one, Nat.testBit_shiftRight]
  by_cases hj : 12 ≤ j
  · have e : 12 + (j - 12) = j := by omega
    rw [e]
    by_cases hjw : j < w
    · have : j - 12 < w - 12 := by omega
      simp [hj, this]
    · have hlt : x < 2 ^ j := lt_of_lt_of_le hx (Nat.pow_le_pow_right (by decide) (by omega))
      simp [Nat.testBit_lt_two_pow hlt]
  · simp [hj]

/-! ## The scan of the segment table in `segfault_handler` -/

/-- The loop either stops at the first matching entry at or after `i` and runs the body
on it, or finds no match and exits. -/
theorem segfault_loop_run (w : Nat) (s : Loader) (A : Nat) (ok : Bool) :
    ∀ k i, i + k = s.phdr.length →
      (∃ (j : Nat) (ph : Elf32_Phdr), i ≤ j ∧ j < i + k ∧ s.phdr[j]? = some ph ∧ segment_matches ph A ∧
          (∀ (j' : Nat) (ph' : Elf32_Phdr), i ≤ j' → j' < j → s.phdr[j']? = some ph' → ¬ segment_matches ph' A) ∧
          segfault_loop w s A ok k i = service_fault w { s with i := j } ph A ok) ∨
      ((∀ (j : Nat) (ph : Elf32_Phdr), i ≤ j → s.phdr[j]? = some ph → ¬ segment_matches ph A) ∧
          segfault_loop w s A ok k i = no_match_run s (i + k)) := by
  intro k
  induction k with
  | zero =>
    intro i hi
    right
    refine ⟨?_, rfl⟩
    intro j ph hj hget
    have := (List.getElem?_eq_some_iff.mp hget).1
    omega
  | succ k ih =>
    intro i hi
    have hlt : i < s.phdr.length := by omega
    have hget : s.phdr[i]? = some (s.phdr[i]) := List.getElem?_eq_getElem hlt
    by_cases hm : segment_matches (s.phdr[i]) A
    · left
      refine ⟨i, s.phdr[i], le_refl i, by omega, hget, hm, ?_, ?_⟩
      · intro j' ph' h1 h2
        omega
      · simp only [segfault_loop, hget, hm, if_true]
    · have hstep : segfault_loop w s A ok (k + 1) i = segfault_loop w s A ok k (i + 1) := by
        simp only [segfault_loop, hget, hm, if_false]
      rcases ih (i + 1) (by omega) with ⟨j, ph, h1, h2, h3, h4, h5, h6⟩ | ⟨h1, h2⟩
      · left
        refine ⟨j, ph, by omega, by omega, h3, h4, ?_, by rw [hstep, h6]⟩
        intro j' ph' g1 g2 g3
        rcases Nat.eq_or_lt_of_le g1 with e | e
        · subst e
          rw [hget] at g3
          cases g3
          exact hm
        · exact h5 j' ph' e g2 g3
      · right
        refine ⟨?_, by rw [hstep, h2]; congr 1; omega⟩
        intro j ph g1 g3
        rcases Nat.eq_or_lt_of_le g1 with e | e
        · subst e
          rw [hget] at g3
          cases g3
          exact hm
        · exact h1 j ph e g3

/-- The handler on a table of `e_phnum` entries: the body runs on the first matching
entry, or the handler exits with the globals untouched (but for `i`). -/
theorem segfault_handler_run (w : Nat) (s : Loader) (A : Nat) (ok : Bool)
    (ht : s.table_ok) (hA : A < 2 ^ 32) :
    (∃ (j : Nat) (ph : Elf32_Phdr), j < s.ehdr.e_phnum ∧ s.phdr[j]? = some ph ∧ segment_matches ph A ∧
        (∀ (j' : Nat) (ph' : Elf32_Phdr), j' < j → s.phdr[j']? = some ph' → ¬ segment_matches ph' A) ∧
        segfault_handler w s A ok = service_fault w { s with i := j } ph A ok) ∨
    ((∀ (j : Nat) (ph : Elf32_Phdr), s.phdr[j]? = some ph → ¬ segment_matches ph A) ∧
        segfault_handler w s A ok = no_match_run s s.ehdr.e_phnum) := by
  unfold Loader.table_ok at ht
  unfold segfault_handler
  rw [Nat.mod_eq_of_lt hA]
  rcases segfault_loop_run w s A ok s.ehdr.e_phnum 0 (by omega) with
    ⟨j, ph, _, h2, h3, h4, h5, h6⟩ | ⟨h1, h2⟩
  · left
    exact ⟨j, ph, by omega, h3, h4, fun j' ph' g1 g2 => h5 j' ph' (Nat.zero_le _) g1 g2, h6⟩
  · right
    refine ⟨fun j ph g => h1 j ph (Nat.zero_le _) g, ?_⟩
    rw [h2]
    congr 1
    omega

/-- Membership in the first `j` entries, by index. -/
theorem mem_take_index {l : List Elf32_Phdr} {j : Nat} {ph : Elf32_Phdr} :
    ph ∈ l.take j ↔ ∃ j', j' < j ∧ l[j']? = some ph := by
  rw [List.mem_iff_getElem?]
  constructor
  · rintro ⟨n, hn⟩
    rw [List.getElem?_take] at hn
    by_cases h : n < j
    · rw [if_pos h] at hn
      exact ⟨n, h, hn⟩
    · rw [if_neg h] at hn
      cases hn
  · rintro ⟨j', h, hn⟩
    exact ⟨j', by rw [List.getElem?_take, if_pos h]; exact hn⟩

/-- Two first matches for the same address are the same entry. -/
theorem first_match_unique {s : Loader} {A j j' : Nat} {ph ph' : Elf32_Phdr}
    (h : first_match s A j ph) (h' : first_match s A j' ph') : j = j' ∧ ph = ph' := by
  obtain ⟨h1, h2, h3⟩ := h
  obtain ⟨g1, g2, g3⟩ := h'
  have hj : j = j' := by
    rcases Nat.lt_trichotomy j j' with c | c | c
    · exact absurd h2 (g3 ph (mem_take_index.mpr ⟨j, c, h1⟩))
    · exact c
    · exact absurd g2 (h3 ph' (mem_take_index.mpr ⟨j', c, g1⟩))
  subst hj
  rw [h1] at g1
  exact ⟨rfl, Option.some.inj g1⟩

/-- The handler on a table of `e_phnum` entries, in terms of the first match. -/
theorem segfault_handler_cases (w : Nat) (s : Loader) (A : Nat) (ok : Bool)
    (ht : s.table_ok) (hA : A < 2 ^ 32) :
    (∃ (j : Nat) (ph : Elf32_Phdr), first_match s A j ph ∧
        segfault_handler w s A ok = service_fault w { s with i := j } ph A ok) ∨
    ((∀ ph ∈ s.phdr, ¬ segment_matches ph A) ∧
        segfault_handler w s A ok = no_match_run s s.ehdr.e_phnum) := by
  rcases segfault_handler_run w s A ok ht hA with ⟨j, ph, _, h2, h3, h4, h5⟩ | ⟨h1, h2⟩
  · left
    refine ⟨j, ph, ⟨h2, h3, ?_⟩, h5⟩
    intro ph' hmem
    obtain ⟨j', g1, g2⟩ := mem_take_index.mp hmem
    exact h4 j' ph' g1 g2
  · right
    refine ⟨?_, h2⟩
    intro ph hmem
    obtain ⟨n, hn⟩ := List.mem_iff_getElem?.mp hmem
    exact h1 n ph hn

/-- When the table has a first match, the handler is the body run on that entry. -/
theorem segfault_handler_first_match (w : Nat) (s : Loader) (A : Nat) (ok : Bool)
    (ht : s.table_ok) (hA : A < 2 ^ 32) {j : Nat} {ph : Elf32_Phdr}
    (hf : first_match s A j ph) :
    segfault_handler w s A ok = service_fault w { s with i := j } ph A ok := by
  rcases segfault_handler_cases w s A ok ht hA with ⟨j', ph', g, e⟩ | ⟨h1, _⟩
  · obtain ⟨rfl, rfl⟩ := first_match_unique hf g
    exact e
  · have hmem : ph ∈ s.phdr := List.mem_iff_getElem?.mpr ⟨j, hf.1⟩
    exact absurd hf.2.1 (h1 ph hmem)

/-- A table with a matching entry has a first matching entry. -/
theorem exists_first_match (w : Nat) (s : Loader) (A : Nat) (ht : s.table_ok) (hA : A < 2 ^ 32)
    (hm : ∃ ph ∈ s.phdr, segment_matches ph A) :
    ∃ (j : Nat) (ph : Elf32_Phdr), first_match s A j ph := by
  rcases segfault_handler_cases w s A true ht hA with ⟨j, ph, g, _⟩ | ⟨h1, _⟩
  · exact ⟨j, ph, g⟩
  · obtain ⟨ph, hmem, hph⟩ := hm
    exact absurd hph (h1 ph hmem)

/-! ## The body of the handler -/

theorem service_fault_trace_fail (w : Nat) (s : Loader) (ph : Elf32_Phdr) (A : Nat) :
    service_fault w s ph A false =
      ⟨[.print_segment_size ph.p_memsz, .print_num_pages (num_pages w ph.p_memsz),
        .sys_mmap (page_start w A) page_size false, .sys_exit 1], s, .exit 1⟩ := by
  simp [service_fault]

theorem service_fault_trace_ok (w : Nat) (s : Loader) (ph : Elf32_Phdr) (A : Nat) :
    (service_fault w s ph A true).trace =
      [.print_segment_size ph.p_memsz, .print_num_pages (num_pages w ph.p_memsz),
        .sys_mmap (page_start w A) page_size true, .sys_lseek (fill_position w ph A),
        .sys_read page_size
          ((s.fd.lseek (toOff w (fill_position w ph A))).read page_size).1.length,
        .print_fragmentation (fragmentation w ph.p_memsz)] := by
  unfold service_fault
  simp only [Bool.not_true, Bool.false_eq_true, if_false]
  split
  · rfl
  · split <;> rfl

theorem service_fault_status (w : Nat) (s : Loader) (ph : Elf32_Phdr) (A : Nat) (ok : Bool) :
    (service_fault w s ph A ok).status = .ret () ↔
      ok = true ∧ s.page_faults < INT_MAX ∧ s.pages_allocated < INT_MAX := by
  cases ok
  · simp [service_fault]
  · unfold service_fault
    simp only [Bool.not_true, Bool.false_eq_true, if_false]
    split
    · simp; omega
    · split
      · simp; omega
      · simp; omega

theorem service_fault_counters (w : Nat) (s : Loader) (ph : Elf32_Phdr) (A : Nat) (ok : Bool)
    (h : (service_fault w s ph A ok).status = .ret ()) :
    (service_fault w s ph A ok).final.page_faults = s.page_faults + 1 ∧
      (service_fault w s ph A ok).final.pages_allocated = s.pages_allocated + 1 ∧
      (service_fault w s ph A ok).final.i = s.i := by
  obtain ⟨rfl, h1, h2⟩ := (service_fault_status w s ph A ok).mp h
  unfold service_fault
  simp only [Bool.not_true, Bool.false_eq_true, if_false]
  rw [if_neg (by omega), if_neg (by omega)]
  exact ⟨rfl, rfl, rfl⟩

theorem service_fault_mmap (w : Nat) (s : Loader) (ph : Elf32_Phdr) (A : Nat) (ok : Bool) :
    Event.sys_mmap (page_start w A) page_size ok ∈ (service_fault w s ph A ok).trace := by
  cases ok
  · rw [service_fault_trace_fail]; simp
  · rw [service_fault_trace_ok]; simp

/-! ## C4: a fault outside every segment -/

/-- The handler's condition implies that the address lies in the segment's range. -/
theorem segment_matches_in_range {ph : Elf32_Phdr} {A : Nat} (h : segment_matches ph A) :
    ph.p_type = PT_LOAD ∧ ph.p_vaddr ≤ A ∧ A < ph.p_vaddr + ph.p_memsz := by
  obtain ⟨h1, h2, h3⟩ := h
  refine ⟨h1, h2, lt_of_lt_of_le h3 ?_⟩
  unfold add32
  exact Nat.mod_le _ _

/-- The handler sees only the address truncated to `Elf32_Addr`. -/
theorem segfault_handler_truncates (w : Nat) (s : Loader) (A : Nat) (ok : Bool) :
    segfault_handler w s A ok = segfault_handler w s (A % 2 ^ 32) ok := by
  unfold segfault_handler
  rw [Nat.mod_mod]

theorem truncated_lt (A : Nat) : A % 2 ^ 32 < 2 ^ 32 := Nat.mod_lt _ (by norm_num)

theorem service_fault_final_i (w : Nat) (s : Loader) (ph : Elf32_Phdr) (A : Nat) (ok : Bool) :
    (service_fault w s ph A ok).final.i = s.i := by
  cases ok
  · rw [service_fault_trace_fail]
  · unfold service_fault
    simp only [Bool.not_true, Bool.false_eq_true, if_false]
    split
    · rfl
    · split <;> rfl

/-- The body of the handler ends in `exit(1)` exactly when the mapping request fails. -/
theorem service_fault_exit (w : Nat) (s : Loader) (ph : Elf32_Phdr) (A : Nat) (ok : Bool) :
    (service_fault w s ph A ok).status = .exit 1 ↔ ok = false := by
  cases ok
  · simp [service_fault]
  · unfold service_fault
    simp only [Bool.not_true, Bool.false_eq_true, if_false]
    split
    · simp
    · split <;> simp

/-- When the 32-bit sum `p_vaddr + p_memsz` does not wrap, the handler's condition is the
range test of the specification. -/
theorem segment_matches_iff_in_segment {ph : Elf32_Phdr} (a : Nat)
    (h : ph.p_type = PT_LOAD → ph.p_vaddr + ph.p_memsz < 2 ^ 32) :
    segment_matches ph a ↔ in_segment ph a := by
  unfold segment_matches in_segment add32
  constructor
  · rintro ⟨h1, h2, h3⟩
    rw [Nat.mod_eq_of_lt (h h1)] at h3
    exact ⟨h1, h2, h3⟩
  · rintro ⟨h1, h2, h3⟩
    rw [Nat.mod_eq_of_lt (h h1)]
    exact ⟨h1, h2, h3⟩

/-- C3 (amended): for every segment table of `e_phnum` entries whose `LOAD` entries all
have `p_vaddr + p_memsz < 2^32`, and every faulting address `A`, taken as the handler's
`Elf32_Addr` `A mod 2^32` (which is `A` itself below `2^32`): the handler requests the
page mapping if and only if some `LOAD` entry has the address in
`[p_vaddr, p_vaddr + p_memsz)`; it ends in `exit(1)` if and only if no entry does or the
mapping request fails; it returns only when an entry matches and the mapping succeeds,
and does return then whenever both counters are below `INT_MAX`; and the segment used for
the mapping and the file fill is the first such entry in table order. -/
theorem segment_match_rule (w : Nat) (s : Loader) (A : Nat) (mmap_ok : Bool)
    (ht : s.table_ok)
    (hnw : ∀ ph ∈ s.phdr, ph.p_type = PT_LOAD → ph.p_vaddr + ph.p_memsz < 2 ^ 32) :
    (A < 2 ^ 32 → A % 2 ^ 32 = A) ∧
    ((∃ (P : Nat) (b : Bool),
        Event.sys_mmap P page_size b ∈ (segfault_handler w s A mmap_ok).trace) ↔
      ∃ ph ∈ s.phdr, in_segment ph (A % 2 ^ 32)) ∧
    ((segfault_handler w s A mmap_ok).status = .exit 1 ↔
      ¬ ((∃ ph ∈ s.phdr, in_segment ph (A % 2 ^ 32)) ∧ mmap_ok = true)) ∧
    ((segfault_handler w s A mmap_ok).status = .ret () →
      (∃ ph ∈ s.phdr, in_segment ph (A % 2 ^ 32)) ∧ mmap_ok = true) ∧
    ((∃ ph ∈ s.phdr, in_segment ph (A % 2 ^ 32)) → mmap_ok = true →
      s.page_faults < INT_MAX → s.pages_allocated < INT_MAX →
      (segfault_handler w s A mmap_ok).status = .ret ()) ∧
    (∀ (j : Nat) (ph : Elf32_Phdr), s.phdr[j]? = some ph → in_segment ph (A % 2 ^ 32) →
      (∀ ph' ∈ s.phdr.take j, ¬ in_segment ph' (A % 2 ^ 32)) →
      (segfault_handler w s A mmap_ok).final.i = j ∧
      Event.sys_mmap (page_start w (A % 2 ^ 32)) page_size mmap_ok ∈
        (segfault_handler w s A mmap_ok).trace ∧
      (mmap_ok = true →
        Event.sys_lseek (fill_position w ph (A % 2 ^ 32)) ∈
          (segfault_handler w s A mmap_ok).trace ∧
        Event.print_fragmentation (fragmentation w ph.p_memsz) ∈
          (segfault_handler w s A mmap_ok).trace)) := by
  have hconv : ∀ ph ∈ s.phdr, (segment_matches ph (A % 2 ^ 32) ↔ in_segment ph (A % 2 ^ 32)) :=
    fun ph hmem => segment_matches_iff_in_segment _ (hnw ph hmem)
  have hex : (∃ ph ∈ s.phdr, segment_matches ph (A % 2 ^ 32)) ↔
      ∃ ph ∈ s.phdr, in_segment ph (A % 2 ^ 32) := by
    constructor
    · rintro ⟨ph, hmem, h⟩
      exact ⟨ph, hmem, (hconv ph hmem).mp h⟩
    · rintro ⟨ph, hmem, h⟩
      exact ⟨ph, hmem, (hconv ph hmem).mpr h⟩
  have hA := truncated_lt A
  rw [segfault_handler_truncates]
  refine ⟨Nat.mod_eq_of_lt, ?_⟩
  rw [← hex]
  have hfirst : ∀ (j : Nat) (ph : Elf32_Phdr), s.phdr[j]? = some ph →
      in_segment ph (A % 2 ^ 32) → (∀ ph' ∈ s.phdr.take j, ¬ in_segment ph' (A % 2 ^ 32)) →
      first_match s (A % 2 ^ 32) j ph := by
    intro j ph hget hin hbefore
    have hmem : ph ∈ s.phdr := List.mem_iff_getElem?.mpr ⟨j, hget⟩
    refine ⟨hget, (hconv ph hmem).mpr hin, ?_⟩
    intro ph' hmem' h
    exact hbefore ph' hmem' ((hconv ph' (List.mem_of_mem_take hmem')).mp h)
  rcases segfault_handler_cases w s (A % 2 ^ 32) mmap_ok ht hA with ⟨j, ph, g, e⟩ | ⟨h1, e⟩
  · have hmem : ph ∈ s.phdr := List.mem_iff_getElem?.mpr ⟨j, g.1⟩
    have hm : ∃ ph ∈ s.phdr, segment_matches ph (A % 2 ^ 32) := ⟨ph, hmem, g.2.1⟩
    refine ⟨?_, ?_, ?_, ?_, ?_⟩
    · constructor
      · intro _
        exact hm
      · intro _
        exact ⟨page_start w (A % 2 ^ 32), mmap_ok, by rw [e]; exact service_fault_mmap w _ ph _ _⟩
    · rw [e, service_fault_exit]
      constructor
      · rintro rfl ⟨_, h⟩
        cases h
      · intro h
        cases mmap_ok
        · rfl
        · exact absurd ⟨hm, rfl⟩ h
    · intro h
      rw [e, service_fault_status] at h
      exact ⟨hm, h.1⟩
    · intro _ hok hpf hpa
      rw [e, service_fault_status]
      exact ⟨hok, hpf, hpa⟩
    · intro j' ph' hget hin hbefore
      rw [segfault_handler_first_match w s _ mmap_ok ht hA (hfirst j' ph' hget hin hbefore)]
      refine ⟨service_fault_final_i w _ ph' _ mmap_ok, service_fault_mmap w _ ph' _ mmap_ok, ?_⟩
      rintro rfl
      rw [service_fault_trace_ok]
      simp
  · have hno : ¬ ∃ ph ∈ s.phdr, segment_matches ph (A % 2 ^ 32) := by
      rintro ⟨ph, hmem, h⟩
      exact h1 ph hmem h
    rw [e]
    refine ⟨?_, ?_, ?_, ?_, ?_⟩
    · constructor
      · rintro ⟨P, b, hmem⟩
        simp [no_match_run] at hmem
      · intro h
        exact absurd h hno
    · constructor
      · intro _ h
        exact hno h.1
      · intro _
        rfl
    · intro h
      simp [no_match_run] at h
    · intro h
      exact absurd h hno
    · intro j' ph' hget hin _
      have hmem : ph' ∈ s.phdr := List.mem_iff_getElem?.mpr ⟨j', hget⟩
      exact absurd ⟨ph', hmem, (hconv ph' hmem).mpr hin⟩ hno

/-- C3 witness: in the example image the address `0x3050` lies in the second segment only,
so the handler leaves `i = 1` and maps the page at `0x3000`. -/
theorem segment_match_rule_witness :
    (example_loader.table_ok ∧
        (∀ ph ∈ example_loader.phdr, ph.p_type = PT_LOAD → ph.p_vaddr + ph.p_memsz < 2 ^ 32) ∧
        example_loader.phdr[1]? = some example_data ∧ in_segment example_data (0x3050 % 2 ^ 32) ∧
        ∀ ph' ∈ example_loader.phdr.take 1, ¬ in_segment ph' (0x3050 % 2 ^ 32)) ∧
      (segfault_handler 32 example_loader 0x3050 true).final.i = 1 ∧
      Event.sys_mmap (page_start 32 (0x3050 % 2 ^ 32)) page_size true ∈
        (segfault_handler 32 example_loader 0x3050 true).trace :=
  ⟨by decide,
    ((segment_match_rule 32 example_loader 0x3050 true (by decide) (by decide)).2.2.2.2.2
      1 example_data (by decide) (by decide) (by decide)).1,
    ((segment_match_rule 32 example_loader 0x3050 true (by decide) (by decide)).2.2.2.2.2
      1 example_data (by decide) (by decide) (by decide)).2.1⟩

/-- C3 counterexample: address `0x3050` lies in the second `LOAD` segment of the example
image, `[0x3000, 0x5000)`, but when the mapping request fails the handler does not service
the fault: it ends in `exit(1)` right after the refused `mmap`. -/
theorem matching_fault_exits_when_mmap_fails :
    (∃ ph ∈ example_loader.phdr, in_segment ph 0x3050) ∧
      (segfault_handler 32 example_loader 0x3050 false).status = .exit 1 ∧
      (segfault_handler 32 example_loader 0x3050 false).trace =
        [.print_segment_size 0x2000, .print_num_pages 2, .sys_mmap 0x3000 page_size false,
          .sys_exit 1] ∧
      (segfault_handler 32 example_loader 0x3050 false).final.page_faults = 0 := by
  decide

/-- The upper bound of the handler's test is a sum of two `uint32_t` values: for the `LOAD`
segment `[0xFFFFF000, 0x100000000)` it wraps to 0, so the address `0xFFFFF800` inside the
segment is not matched and the handler exits although the mapping request would succeed. -/
theorem match_misses_wrapped_segment :
    (∃ ph ∈ [(⟨1, 0, 0xFFFFF000, 0, 0x1000, 0x1000, 5, 0x1000⟩ : Elf32_Phdr)],
        in_segment ph 0xFFFFF800) ∧
      (segfault_handler 32
        ⟨{ example_ehdr with e_phnum := 1 }, [⟨1, 0, 0xFFFFF000, 0, 0x1000, 0x1000, 5, 0x1000⟩],
          ⟨[], 0⟩, 0, 0xFFFFF000, 0, 0⟩ 0xFFFFF800 true).status = .exit 1 ∧
      (segfault_handler 32
        ⟨{ example_ehdr with e_phnum := 1 }, [⟨1, 0, 0xFFFFF000, 0, 0x1000, 0x1000, 5, 0x1000⟩],
          ⟨[], 0⟩, 0, 0xFFFFF000, 0, 0⟩ 0xFFFFF800 true).trace = [.sys_exit 1] := by
  decide

/-! ## C5: accounting -/

/-- Whenever the handler's loop returns, both counters have grown by one. -/
theorem segfault_loop_counters (w : Nat) (s : Loader) (A : Nat) (ok : Bool) :
    ∀ k i, (segfault_loop w s A ok k i).status = .ret () →
      (segfault_loop w s A ok k i).final.page_faults = s.page_faults + 1 ∧
      (segfault_loop w s A ok k i).final.pages_allocated = s.pages_allocated + 1 := by
  intro k
  induction k with
  | zero =>
    intro i h
    simp [segfault_loop] at h
  | succ k ih =>
    intro i h
    cases hget : s.phdr[i]? with
    | none => simp [segfault_loop, hget] at h
    | some ph =>
      simp only [segfault_loop, hget] at h ⊢
      by_cases hm : segment_matches ph A
      · rw [if_pos hm] at h ⊢
        have := service_fault_counters w { s with i := i } ph A ok h
        exact ⟨this.1, this.2.1⟩
      · rw [if_neg hm] at h ⊢
        exact ih (i + 1) h

/-- Whenever the handler's loop ends in `exit`, both counters are as they were. -/
theorem segfault_loop_exit_counters (w : Nat) (s : Loader) (A : Nat) (ok : Bool) (st : Nat) :
    ∀ k i, (segfault_loop w s A ok k i).status = .exit st →
      (segfault_loop w s A ok k i).final.page_faults = s.page_faults ∧
      (segfault_loop w s A ok k i).final.pages_allocated = s.pages_allocated := by
  intro k
  induction k with
  | zero =>
    intro i _
    exact ⟨rfl, rfl⟩
  | succ k ih =>
    intro i h
    cases hget : s.phdr[i]? with
    | none => simp [segfault_loop, hget] at h
    | some ph =>
      simp only [segfault_loop, hget] at h ⊢
      by_cases hm : segment_matches ph A
      · rw [if_pos hm] at h ⊢
        cases ok
        · rw [service_fault_trace_fail]
          exact ⟨rfl, rfl⟩
        · exfalso
          revert h
          unfold service_fault
          simp only [Bool.not_true, Bool.false_eq_true, if_false]
          split
          · simp
          · split <;> simp
      · rw [if_neg hm] at h ⊢
        exact ih (i + 1) h

/-- A sequence of handled faults that all return adds its length to both counters. -/
theorem run_faults_counters (w : Nat) :
    ∀ (faults : List (Nat × Bool)) (s s' : Loader), run_faults w s faults = .ret s' →
      s'.page_faults = s.page_faults + faults.length ∧
      s'.pages_allocated = s.pages_allocated + faults.length := by
  intro faults
  induction faults with
  | nil =>
    intro s s' h
    simp only [run_faults, Outcome.ret.injEq] at h
    subst h
    simp
  | cons f rest ih =>
    intro s s' h
    obtain ⟨A, ok⟩ := f
    unfold run_faults at h
    split at h
    · rename_i u hst
      have hc := segfault_loop_counters w s (A % 2 ^ 32) ok s.ehdr.e_phnum 0 hst
      have := ih _ _ h
      unfold segfault_handler at this
      rw [hc.1, hc.2] at this
      simp only [List.length_cons, Nat.cast_add, Nat.cast_one]
      omega
    · simp at h
    · simp at h

/-- C5 (amended): for every loader state with a table of `e_phnum` entries whose two
counters are below `INT_MAX`, and every 32-bit fault address on which the handler's
condition holds for some entry, a run of the handler with the mapping request succeeding
returns with `page_faults` and `pages_allocated` each increased by exactly 1; and in every
state reached from a state with both counters 0 by a sequence of handler invocations that
return, `page_faults = pages_allocated` = the number of invocations, and along any such
sequence neither counter decreases; an invocation that ends in `exit` leaves both
counters as they were. -/
theorem fault_accounting (w : Nat) (s : Loader) (A : Nat) (ht : s.table_ok) (hA : A < 2 ^ 32)
    (hm : ∃ ph ∈ s.phdr, segment_matches ph A)
    (hpf : s.page_faults < INT_MAX) (hpa : s.pages_allocated < INT_MAX) :
    ((segfault_handler w s A true).status = .ret () ∧
      (segfault_handler w s A true).final.page_faults = s.page_faults + 1 ∧
      (segfault_handler w s A true).final.pages_allocated = s.pages_allocated + 1) ∧
    (∀ (s0 s' : Loader) (faults : List (Nat × Bool)),
      s0.page_faults = 0 → s0.pages_allocated = 0 → run_faults w s0 faults = .ret s' →
      s'.page_faults = s'.pages_allocated ∧ s'.page_faults = faults.length) ∧
    (∀ (s1 s2 : Loader) (faults : List (Nat × Bool)), run_faults w s1 faults = .ret s2 →
      s1.page_faults ≤ s2.page_faults ∧ s1.pages_allocated ≤ s2.pages_allocated) ∧
    (∀ (s1 : Loader) (A1 : Nat) (ok : Bool) (st : Nat),
      (segfault_handler w s1 A1 ok).status = .exit st →
      (segfault_handler w s1 A1 ok).final.page_faults = s1.page_faults ∧
      (segfault_handler w s1 A1 ok).final.pages_allocated = s1.pages_allocated) := by
  refine ⟨?_, ?_, ?_, fun s1 A1 ok st h =>
    segfault_loop_exit_counters w s1 (A1 % 2 ^ 32) ok st s1.ehdr.e_phnum 0 h⟩
  · obtain ⟨j, ph, hf⟩ := exists_first_match w s A ht hA hm
    have e := segfault_handler_first_match w s A true ht hA hf
    have hst : (segfault_handler w s A true).status = .ret () := by
      rw [e, service_fault_status]
      exact ⟨rfl, hpf, hpa⟩
    refine ⟨hst, ?_⟩
    rw [e] at hst ⊢
    have := service_fault_counters w { s with i := j } ph A true hst
    exact ⟨this.1, this.2.1⟩
  · intro s0 s' faults h0 h1 h
    have := run_faults_counters w faults s0 s' h
    rw [h0, h1] at this
    omega
  · intro s1 s2 faults h
    have := run_faults_counters w faults s1 s2 h
    omega

/-- C5 witness: three faults on the example image, each serviced, leave both counters at 3. -/
theorem fault_accounting_witness :
    (example_loader.table_ok ∧ 0x3050 < 2 ^ 32 ∧
        (∃ ph ∈ example_loader.phdr, segment_matches ph 0x3050) ∧
        example_loader.page_faults < INT_MAX ∧ example_loader.pages_allocated < INT_MAX) ∧
      (segfault_handler 32 example_loader 0x3050 true).final.page_faults = 1 ∧
      (∃ s', run_faults 32 example_loader [(0x3050, true), (0x1000, true), (0x4fff, true)]
          = .ret s' ∧ s'.page_faults = 3 ∧ s'.pages_allocated = 3) :=
  ⟨by decide,
    (fault_accounting 32 example_loader 0x3050 (by decide) (by decide) (by decide) (by decide)
      (by decide)).1.2.1,
    ⟨_, rfl, by decide, by decide⟩⟩

/-- C5 counterexample: with `page_faults = INT_MAX` the increment `page_faults++` of a
serviced fault overflows `int`: the run does not end with the counter one higher. -/
theorem counter_overflow_at_int_max :
    (∃ ph ∈ saturated_loader.phdr, segment_matches ph 0x3050) ∧
      saturated_loader.page_faults = INT_MAX ∧
      ¬ ((segfault_handler 32 saturated_loader 0x3050 true).status = .ret () ∧
          (segfault_handler 32 saturated_loader 0x3050 true).final.page_faults =
            saturated_loader.page_faults + 1) ∧
      (segfault_handler 32 saturated_loader 0x3050 true).status = .undefined := by
  decide

/-! ## C9 and C10: the page that is mapped and the file position it is filled from -/

/-- The page address, the segment's page-aligned base and their difference for an address
on which the handler's condition holds, as natural numbers. -/
theorem page_geometry {w : Nat} {ph : Elf32_Phdr} {A : Nat} (hw : 32 ≤ w) (hA : A < 2 ^ 32)
    (hv : ph.p_vaddr < 2 ^ 32) (hm : segment_matches ph A) :
    page_start w A = A - A % page_size ∧
      segment_addr w ph = ph.p_vaddr - ph.p_vaddr % page_size ∧
      segment_addr w ph ≤ page_start w A ∧
      page_offset w ph A = page_start w A - segment_addr w ph := by
  have h32 := two_pow_le_of_le hw
  have hP : page_start w A = A - A % page_size := land_page_mask hw (by omega)
  have hS : segment_addr w ph = ph.p_vaddr - ph.p_vaddr % page_size :=
    land_page_mask hw (by omega)
  have hle : segment_addr w ph ≤ page_start w A := by
    rw [hP, hS]
    have := hm.2.1
    unfold page_size
    omega
  refine ⟨hP, hS, hle, ?_⟩
  unfold page_offset
  apply subw_eq_of_le hle
  rw [hP]
  omega

/-- C9: for every 32-bit fault address `A` on which the handler's condition holds for the
first time at entry `ph` (a `LOAD` entry with 32-bit base `p_vaddr`), the address passed to
`mmap`, `P = A & ~(page_size - 1)`, is a multiple of `page_size` with `P ≤ A < P + page_size`,
and the offset `P - (p_vaddr & ~(page_size - 1))` does not underflow, is a multiple of
`page_size` and is smaller than `p_memsz + page_size`. -/
theorem page_alignment (w : Nat) (s : Loader) (A j : Nat) (ph : Elf32_Phdr) (mmap_ok : Bool)
    (hw : 32 ≤ w) (ht : s.table_ok) (hA : A < 2 ^ 32) (hv : ph.p_vaddr < 2 ^ 32)
    (hf : first_match s A j ph) :
    Event.sys_mmap (page_start w A) page_size mmap_ok ∈
        (segfault_handler w s A mmap_ok).trace ∧
      page_start w A % page_size = 0 ∧
      page_start w A ≤ A ∧ A < page_start w A + page_size ∧
      segment_addr w ph ≤ page_start w A ∧
      page_offset w ph A = page_start w A - segment_addr w ph ∧
      page_offset w ph A % page_size = 0 ∧
      page_offset w ph A < ph.p_memsz + page_size := by
  obtain ⟨hP, hS, hle, hoff⟩ := page_geometry hw hA hv hf.2.1
  have hr := segment_matches_in_range hf.2.1
  refine ⟨?_, ?_, ?_, ?_, hle, hoff, ?_, ?_⟩
  · rw [segfault_handler_first_match w s A mmap_ok ht hA hf]
    exact service_fault_mmap w _ ph A mmap_ok
  · rw [hP]; unfold page_size; omega
  · rw [hP]; omega
  · rw [hP]; unfold page_size; omega
  · rw [hoff, hP, hS]; unfold page_size; omega
  · rw [hoff, hP, hS]; unfold page_size; omega

/-- C9 witness: address `0x3050` of the example image is mapped at page `0x3000`. -/
theorem page_alignment_witness :
    (32 ≤ 32 ∧ example_loader.table_ok ∧ 0x3050 < 2 ^ 32 ∧ 0x3000 < 2 ^ 32 ∧
        first_match example_loader 0x3050 1 example_data) ∧
      page_start 32 0x3050 % page_size = 0 ∧
      page_offset 32 example_data 0x3050 <
        0x2000 + page_size :=
  ⟨by decide,
    (page_alignment 32 example_loader 0x3050 1 example_data
      true (by decide) (by decide) (by decide) (by decide) (by decide)).2.1,
    (page_alignment 32 example_loader 0x3050 1 example_data
      true (by decide) (by decide) (by decide) (by decide) (by decide)).2.2.2.2.2.2.2⟩

/-- C10 (amended): for every `LOAD` entry with 32-bit fields that is the first match of a
32-bit fault address `A`, with `P` the page-aligned address of `A`, the position the
handler passes to `lseek` is `(p_offset + offset) mod 2^w`, a sum in `size_t`, where
`offset = (P - p_vaddr) + (p_vaddr mod page_size)` over the integers; whenever that sum
does not wrap (always when `size_t` has more than 32 bits) the position equals
`p_offset + (P - p_vaddr) + (p_vaddr mod page_size)`, hence equals `p_offset + (P - p_vaddr)`
if and only if `p_vaddr` is a multiple of `page_size`. -/
theorem fill_position_formula (w : Nat) (s : Loader) (A j : Nat) (ph : Elf32_Phdr)
    (hw : 32 ≤ w) (ht : s.table_ok) (hA : A < 2 ^ 32) (hfit : ph.fits32)
    (hf : first_match s A j ph) :
    Event.sys_lseek (fill_position w ph A) ∈ (segfault_handler w s A true).trace ∧
      fill_position w ph A = (ph.p_offset + page_offset w ph A) % 2 ^ w ∧
      (page_offset w ph A : Int) =
        ((page_start w A : Int) - ph.p_vaddr) + ((ph.p_vaddr % page_size : Nat) : Int) ∧
      (ph.p_offset + page_offset w ph A < 2 ^ w →
        (fill_position w ph A : Int) = ph.p_offset + ((page_start w A : Int) - ph.p_vaddr) +
            ((ph.p_vaddr % page_size : Nat) : Int) ∧
        ((fill_position w ph A : Int) = ph.p_offset + ((page_start w A : Int) - ph.p_vaddr) ↔
          ph.p_vaddr % page_size = 0)) ∧
      (33 ≤ w → ph.p_offset + page_offset w ph A < 2 ^ w) := by
  obtain ⟨ho, hv, _⟩ := hfit
  obtain ⟨hP, hS, hle, hoff⟩ := page_geometry hw hA hv hf.2.1
  have hoffZ : (page_offset w ph A : Int) =
      ((page_start w A : Int) - ph.p_vaddr) + ((ph.p_vaddr % page_size : Nat) : Int) := by
    rw [hoff, hS]
    have h1 : ph.p_vaddr % page_size ≤ ph.p_vaddr := Nat.mod_le _ _
    omega
  refine ⟨?_, rfl, hoffZ, ?_, ?_⟩
  · rw [segfault_handler_first_match w s A true ht hA hf, service_fault_trace_ok]
    simp
  · intro hlt
    have hfp : fill_position w ph A = ph.p_offset + page_offset w ph A := addw_eq_of_lt hlt
    rw [hfp]
    constructor
    · push_cast
      omega
    · push_cast
      omega
  · intro h33
    have hpow : 2 ^ 33 ≤ 2 ^ w := Nat.pow_le_pow_right (by decide) h33
    have : page_offset w ph A ≤ A := by
      rw [hoff, hP]
      omega
    omega

/-- C10 witness: in the example image the page of `0x4010` is filled from file position
`0x2000 + 0x1000`. -/
theorem fill_position_formula_witness :
    (32 ≤ 32 ∧ example_loader.table_ok ∧ 0x4010 < 2 ^ 32 ∧ example_data.fits32 ∧
        first_match example_loader 0x4010 1 example_data) ∧
      fill_position 32 example_data 0x4010 = 0x3000 ∧
      Event.sys_lseek (fill_position 32 example_data 0x4010) ∈
        (segfault_handler 32 example_loader 0x4010 true).trace :=
  ⟨by decide, by decide,
    (fill_position_formula 32 example_loader 0x4010 1 example_data (by decide) (by decide)
      (by decide) (by decide) (by decide)).1⟩

/-- C10 counterexample: with a 32-bit `size_t`, `p_offset = 0xFFFFFFFF` and a fault at
`0x2000` in the segment `[0x1000, 0x3000)`, the handler seeks to `0xFFF`, not to
`p_offset + (P - p_vaddr) + (p_vaddr mod page_size) = 0x100000FFF`. -/
theorem fill_position_wraps :
    first_match far_loader 0x2000 0 far_segment ∧
      page_start 32 0x2000 = 0x2000 ∧
      Event.sys_lseek 0xFFF ∈ (segfault_handler 32 far_loader 0x2000 true).trace ∧
      fill_position 32 far_segment 0x2000 = 0xFFF ∧
      ¬ ((fill_position 32 far_segment 0x2000 : Int) =
          far_segment.p_offset + ((page_start 32 0x2000 : Int) - far_segment.p_vaddr) +
            ((far_segment.p_vaddr % page_size : Nat) : Int)) := by
  decide

/-! ## `find_entry_pt` -/

theorem sub32_lt (a b : Nat) : sub32 a b < 2 ^ 32 := by
  unfold sub32
  exact Nat.mod_lt _ (by norm_num)

/-- Storing an unsigned 32-bit value in `int min` and reading it back in an unsigned
comparison gives the value again. -/
theorem toU32_toI32 {x : Nat} (h : x < 2 ^ 32) : toU32 (toI32 x) = x := by
  unfold toU32 toI32
  rw [Nat.mod_eq_of_lt h]
  norm_num at h ⊢
  split <;> omega

/-- The initial `int min = 0xFFFFFFFF` compares as the largest unsigned value. -/
theorem toU32_initial_min : toU32 (toI32 0xFFFFFFFF) = 4294967295 :=
  toU32_toI32 (by norm_num)

/-- The loop of `find_entry_pt` on a table whose entries `i ..` are all present: it
returns, `min` only goes down, every `LOAD` entry scanned has a difference of at least
the final `min`, and either nothing was selected or the selected entry is a scanned `LOAD`
entry whose difference is the final `min`. -/
theorem find_entry_loop_run (ehdr : Elf32_Ehdr) (phdr : List Elf32_Phdr) :
    ∀ (k i : Nat) (min : Int) (me : Nat), i + k = phdr.length →
      ∃ (min' : Int) (me' : Nat),
        find_entry_loop ehdr phdr k i min me = .ret (min', me') ∧
        toU32 min' ≤ toU32 min ∧
        (∀ (j : Nat) (ph : Elf32_Phdr), i ≤ j → phdr[j]? = some ph → ph.p_type = PT_LOAD →
          toU32 min' ≤ sub32 ehdr.e_entry ph.p_vaddr) ∧
        ((min' = min ∧ me' = me) ∨
          (toU32 min' < toU32 min ∧ ∃ ph : Elf32_Phdr, phdr[me']? = some ph ∧
            ph.p_type = PT_LOAD ∧ sub32 ehdr.e_entry ph.p_vaddr = toU32 min')) := by
  intro k
  induction k with
  | zero =>
    intro i min me hi
    refine ⟨min, me, rfl, le_refl _, ?_, Or.inl ⟨rfl, rfl⟩⟩
    intro j ph hj hget
    have := (List.getElem?_eq_some_iff.mp hget).1
    omega
  | succ k ih =>
    intro i min me hi
    have hlt : i < phdr.length := by omega
    have hget : phdr[i]? = some (phdr[i]) := List.getElem?_eq_getElem hlt
    by_cases hc : phdr[i].p_type = PT_LOAD ∧ toU32 min > sub32 ehdr.e_entry phdr[i].p_vaddr
    · have hstep : find_entry_loop ehdr phdr (k + 1) i min me =
          find_entry_loop ehdr phdr k (i + 1) (toI32 (sub32 ehdr.e_entry phdr[i].p_vaddr)) i := by
        simp only [find_entry_loop, hget, hc.1, hc.2, if_true]
      have hD := toU32_toI32 (sub32_lt ehdr.e_entry phdr[i].p_vaddr)
      obtain ⟨min', me', h1, h2, h3, h4⟩ :=
        ih (i + 1) (toI32 (sub32 ehdr.e_entry phdr[i].p_vaddr)) i (by omega)
      rw [hD] at h2
      refine ⟨min', me', by rw [hstep, h1], by omega, ?_, Or.inr ⟨by omega, ?_⟩⟩
      · intro j ph g1 g2 g3
        rcases Nat.eq_or_lt_of_le g1 with e | e
        · subst e
          rw [hget] at g2
          cases g2
          exact h2
        · exact h3 j ph e g2 g3
      · rcases h4 with ⟨e1, e2⟩ | ⟨_, ph, g1, g2, g3⟩
        · refine ⟨phdr[i], ?_, hc.1, ?_⟩
          · rw [e2]; exact hget
          · rw [e1]; exact hD.symm
        · exact ⟨ph, g1, g2, g3⟩
    · have hstep : find_entry_loop ehdr phdr (k + 1) i min me =
          find_entry_loop ehdr phdr k (i + 1) min me := by
        by_cases hl : phdr[i].p_type = PT_LOAD
        · have hnot : ¬ toU32 min > sub32 ehdr.e_entry phdr[i].p_vaddr := fun h => hc ⟨hl, h⟩
          simp only [find_entry_loop, hget, hl, hnot, if_true, if_false]
        · simp only [find_entry_loop, hget, hl, if_false]
      obtain ⟨min', me', h1, h2, h3, h4⟩ := ih (i + 1) min me (by omega)
      refine ⟨min', me', by rw [hstep, h1], h2, ?_, h4⟩
      intro j ph g1 g2 g3
      rcases Nat.eq_or_lt_of_le g1 with e | e
      · subst e
        rw [hget] at g2
        cases g2
        have : ¬ toU32 min > sub32 ehdr.e_entry phdr[i].p_vaddr := fun h => hc ⟨g3, h⟩
        omega
      · exact h3 j ph e g2 g3

/-- The function `find_entry_pt` on a non-empty table of `e_phnum` entries: it returns with
an index inside the table; the selected entry is a `LOAD` entry of minimal difference as
soon as some `LOAD` entry has a difference below `0xFFFFFFFF`, and is entry 0 otherwise. -/
theorem find_entry_pt_run (s : Loader) (ht : s.table_ok) (hne : 0 < s.ehdr.e_phnum) :
    ∃ (j : Nat) (ph : Elf32_Phdr), j < s.ehdr.e_phnum ∧ s.phdr[j]? = some ph ∧
      find_entry_pt s = .ret { s with i := j, entry_pt := ph.p_vaddr } ∧
      ((∃ ph' ∈ s.phdr, ph'.p_type = PT_LOAD ∧ sub32 s.ehdr.e_entry ph'.p_vaddr < 4294967295) →
        ph.p_type = PT_LOAD ∧
        ∀ ph' ∈ s.phdr, ph'.p_type = PT_LOAD →
          sub32 s.ehdr.e_entry ph.p_vaddr ≤ sub32 s.ehdr.e_entry ph'.p_vaddr) ∧
      ((∀ ph' ∈ s.phdr, ph'.p_type = PT_LOAD → sub32 s.ehdr.e_entry ph'.p_vaddr = 4294967295) →
        j = 0) := by
  unfold Loader.table_ok at ht
  obtain ⟨min', me', h1, _, h3, h4⟩ :=
    find_entry_loop_run s.ehdr s.phdr s.ehdr.e_phnum 0 (toI32 0xFFFFFFFF) 0 (by omega)
  rw [toU32_initial_min] at h4
  rcases h4 with ⟨e1, e2⟩ | ⟨hlt, ph, g1, g2, g3⟩
  · have hlt0 : 0 < s.phdr.length := by omega
    have hget : s.phdr[0]? = some (s.phdr[0]) := List.getElem?_eq_getElem hlt0
    refine ⟨0, s.phdr[0], hne, hget, ?_, ?_, fun _ => rfl⟩
    · simp only [find_entry_pt, h1, e2, hget]
    · rintro ⟨ph', hmem, hl, hd⟩
      obtain ⟨n, hn⟩ := List.mem_iff_getElem?.mp hmem
      have := h3 n ph' (Nat.zero_le _) hn hl
      rw [e1, toU32_initial_min] at this
      omega
  · have hme : me' < s.phdr.length := (List.getElem?_eq_some_iff.mp g1).1
    refine ⟨me', ph, by omega, g1, ?_, ?_, ?_⟩
    · simp only [find_entry_pt, h1, g1]
    · intro _
      refine ⟨g2, ?_⟩
      intro ph' hmem hl
      obtain ⟨n, hn⟩ := List.mem_iff_getElem?.mp hmem
      have := h3 n ph' (Nat.zero_le _) hn hl
      omega
    · intro hall
      have hmem : ph ∈ s.phdr := List.mem_iff_getElem?.mpr ⟨me', g1⟩
      have := hall ph hmem g2
      omega

/-- The function `find_entry_pt` has no `exit`: whatever the header and the table. -/
theorem find_entry_pt_no_exit (s : Loader) (st : Nat) : find_entry_pt s ≠ .exit st := by
  have hloop : ∀ (st' k i : Nat) (min : Int) (me : Nat),
      find_entry_loop s.ehdr s.phdr k i min me ≠ .exit st' := by
    intro st' k
    induction k with
    | zero =>
      intro i min me
      simp [find_entry_loop]
    | succ k ih =>
      intro i min me
      unfold find_entry_loop
      split
      · simp
      · split
        · split
          · exact ih _ _ _
          · exact ih _ _ _
        · exact ih _ _ _
  unfold find_entry_pt
  split
  · split <;> simp
  · rename_i st' h
    exact absurd h (hloop _ _ _ _ _)
  · simp

/-- The entry-point example of the specification: with `LOAD` bases `0x1000` and `0x3000`
and `e_entry = 0x3050`, `find_entry_pt` selects the second segment (difference `0x50`), not
the first (difference `0x2050`). -/
theorem find_entry_pt_example :
    find_entry_pt example_loader = .ret { example_loader with i := 1, entry_pt := 0x3000 } ∧
      sub32 0x3050 0x3000 = 0x50 ∧ sub32 0x3050 0x1000 = 0x2050 := by
  decide

/-- C1, the failing input evaluated: the entry address `0xFFF` is one below the base of the
only `LOAD` segment, so its difference is `0xFFFFFFFF`, which the strict comparison with
the initial `min = 0xFFFFFFFF` never accepts; `find_entry_pt` keeps index 0, a `PT_NOTE`
entry, and sets `entry_pt` from it. -/
theorem find_entry_pt_selects_non_load :
    (∃ ph ∈ note_first_loader.phdr, ph.p_type = PT_LOAD) ∧
      find_entry_pt note_first_loader = .ret { note_first_loader with i := 0, entry_pt := 0x100 } ∧
      note_first_loader.phdr[0]? = some ⟨4, 0x100, 0x100, 0x100, 0x20, 0x20, 4, 4⟩ ∧
      (4 : Nat) ≠ PT_LOAD := by
  decide

/-! ## Reading the headers -/

theorem byteAt_lt (b : List Byte) (k : Nat) : byteAt b k < 256 := by
  unfold byteAt
  exact (b.getD k 0).isLt

theorem le32_lt (b : List Byte) (k : Nat) : le32 b k < 2 ^ 32 := by
  have h0 := byteAt_lt b k
  have h1 := byteAt_lt b (k + 1)
  have h2 := byteAt_lt b (k + 2)
  have h3 := byteAt_lt b (k + 3)
  unfold le32
  norm_num
  omega

theorem length_decode_Phdrs (b : List Byte) (n : Nat) : (decode_Phdrs b n).length = n := by
  simp [decode_Phdrs]

theorem p_vaddr_decode_Phdrs_lt (b : List Byte) (n : Nat) :
    ∀ ph ∈ decode_Phdrs b n, ph.p_vaddr < 2 ^ 32 := by
  intro ph hmem
  simp only [decode_Phdrs, List.mem_map] at hmem
  obtain ⟨j, _, rfl⟩ := hmem
  exact le32_lt _ _

/-- What `read` returns: as many bytes as asked for, or what is left of the file. -/
theorem length_read (f : File) (n : Nat) :
    (f.read n).1.length = min n (f.bytes.length - f.pos) := by
  simp [File.read]

/-- A returning `load_ehdr` has read 52 bytes at offset 0 and decoded them. -/
theorem load_ehdr_ret {env : Env} {fd : File} {eh : Elf32_Ehdr} {fd1 : File}
    (h : (load_ehdr env fd).out = .ret (eh, fd1)) :
    eh = decode_Ehdr ((fd.lseek 0).read sizeof_Elf32_Ehdr).1 ∧
      fd1 = ((fd.lseek 0).read sizeof_Elf32_Ehdr).2 ∧ is_elf32 eh = true ∧
      (load_ehdr env fd).trace =
        [.sys_malloc sizeof_Elf32_Ehdr true, .sys_lseek 0,
          .sys_read sizeof_Elf32_Ehdr sizeof_Elf32_Ehdr] := by
  unfold load_ehdr at h ⊢
  simp only at h ⊢
  split at h
  · simp at h
  · rename_i hm
    rw [if_neg hm]
    split at h
    · simp at h
    · rename_i hl
      rw [if_neg hl]
      split at h
      · simp at h
      · rename_i hc
        rw [if_neg hc]
        simp only [Outcome.ret.injEq, Prod.mk.injEq] at h
        simp only [ne_eq, Decidable.not_not] at hl
        refine ⟨h.1.symm, h.2.symm, by rw [← h.1]; simpa using hc, by rw [hl]⟩

theorem lseek_bytes (f : File) (off : Int) : (f.lseek off).bytes = f.bytes := by
  unfold File.lseek
  split <;> rfl

/-- An offset below `2^(w-1)` is itself as an `off_t` of `w` bits, so `lseek` reaches it. -/
theorem lseek_representable (w : Nat) (f : File) {v : Nat} (hv : v < 2 ^ (w - 1)) :
    f.lseek (toOff w v) = { f with pos := v } := by
  have hle : 2 ^ (w - 1) ≤ 2 ^ w := Nat.pow_le_pow_right (by decide) (Nat.sub_le w 1)
  have hmod : v % 2 ^ w = v := Nat.mod_eq_of_lt (lt_of_lt_of_le hv hle)
  unfold File.lseek toOff
  rw [hmod, if_pos hv, if_neg (by omega)]
  simp

/-- The three cases of `load_phdr`, with `p` the position the unchecked `lseek` leaves: the
allocation fails; the read is short; or the table of `e_phnum` entries is read from `p`. -/
theorem load_phdr_cases (w : Nat) (env : Env) (fd : File) (ehdr : Elf32_Ehdr) :
    (env.malloc_ok (sizeof_Elf32_Phdr * ehdr.e_phnum) = false ∧
      load_phdr w env fd ehdr =
        ⟨[.sys_malloc (sizeof_Elf32_Phdr * ehdr.e_phnum) false, .sys_exit 1], .exit 1⟩) ∨
    (env.malloc_ok (sizeof_Elf32_Phdr * ehdr.e_phnum) = true ∧
      ¬ sizeof_Elf32_Phdr * ehdr.e_phnum ≤
          fd.bytes.length - (fd.lseek (toOff w ehdr.e_phoff)).pos ∧
      load_phdr w env fd ehdr =
        ⟨[.sys_malloc (sizeof_Elf32_Phdr * ehdr.e_phnum) true, .sys_lseek ehdr.e_phoff,
          .sys_read (sizeof_Elf32_Phdr * ehdr.e_phnum)
            (fd.bytes.length - (fd.lseek (toOff w ehdr.e_phoff)).pos),
          .sys_exit 1], .exit 1⟩) ∨
    (env.malloc_ok (sizeof_Elf32_Phdr * ehdr.e_phnum) = true ∧
      sizeof_Elf32_Phdr * ehdr.e_phnum ≤
          fd.bytes.length - (fd.lseek (toOff w ehdr.e_phoff)).pos ∧
      load_phdr w env fd ehdr =
        ⟨[.sys_malloc (sizeof_Elf32_Phdr * ehdr.e_phnum) true, .sys_lseek ehdr.e_phoff,
          .sys_read (sizeof_Elf32_Phdr * ehdr.e_phnum) (sizeof_Elf32_Phdr * ehdr.e_phnum)],
          .ret (decode_Phdrs ((fd.bytes.drop (fd.lseek (toOff w ehdr.e_phoff)).pos).take
                (sizeof_Elf32_Phdr * ehdr.e_phnum)) ehdr.e_phnum,
            ⟨fd.bytes, (fd.lseek (toOff w ehdr.e_phoff)).pos +
              sizeof_Elf32_Phdr * ehdr.e_phnum⟩)⟩) := by
  have hlen := length_read (fd.lseek (toOff w ehdr.e_phoff)) (sizeof_Elf32_Phdr * ehdr.e_phnum)
  rw [lseek_bytes] at hlen
  have hread : (fd.lseek (toOff w ehdr.e_phoff)).read (sizeof_Elf32_Phdr * ehdr.e_phnum) =
      ((fd.bytes.drop (fd.lseek (toOff w ehdr.e_phoff)).pos).take
          (sizeof_Elf32_Phdr * ehdr.e_phnum),
        ⟨fd.bytes, (fd.lseek (toOff w ehdr.e_phoff)).pos +
          ((fd.lseek (toOff w ehdr.e_phoff)).read (sizeof_Elf32_Phdr * ehdr.e_phnum)).1.length⟩) := by
    simp only [File.read, lseek_bytes]
  cases hm : env.malloc_ok (sizeof_Elf32_Phdr * ehdr.e_phnum)
  · left
    simp [load_phdr, hm]
  · right
    by_cases hav : sizeof_Elf32_Phdr * ehdr.e_phnum ≤
        fd.bytes.length - (fd.lseek (toOff w ehdr.e_phoff)).pos
    · right
      have hl : ((fd.lseek (toOff w ehdr.e_phoff)).read
          (sizeof_Elf32_Phdr * ehdr.e_phnum)).1.length = sizeof_Elf32_Phdr * ehdr.e_phnum := by
        rw [hlen]; omega
      refine ⟨rfl, hav, ?_⟩
      simp only [load_phdr, hm, Bool.not_true, Bool.false_eq_true, if_false, hl, ne_eq,
        not_true_eq_false]
      rw [hread, hl]
    · left
      have hl : ((fd.lseek (toOff w ehdr.e_phoff)).read
          (sizeof_Elf32_Phdr * ehdr.e_phnum)).1.length =
          fd.bytes.length - (fd.lseek (toOff w ehdr.e_phoff)).pos := by
        rw [hlen]; omega
      have hne : fd.bytes.length - (fd.lseek (toOff w ehdr.e_phoff)).pos ≠
          sizeof_Elf32_Phdr * ehdr.e_phnum := by omega
      refine ⟨rfl, hav, ?_⟩
      simp only [load_phdr, hm, Bool.not_true, Bool.false_eq_true, if_false, hl, ne_eq, hne,
        not_false_eq_true, if_true]

/-! ## C7: `load_phdr` -/

/-- C7 (amended): for every header whose `e_phoff` is representable in `off_t`
(`e_phoff < 2^(w-1)` for an `off_t` of `w` bits) and every file, when the allocation
succeeds `load_phdr` seeks to `e_phoff` and asks `read` for exactly
`e_phnum * sizeof(Elf32_Phdr)` bytes, 32 bytes per entry whatever `e_phentsize` the header
declares; it returns, with the table of `e_phnum` entries decoded from those bytes, if and
only if that many bytes are available from that offset, and otherwise ends in `exit(1)`. -/
theorem load_phdr_reads_table (w : Nat) (env : Env) (fd : File) (ehdr : Elf32_Ehdr)
    (hm : env.malloc_ok (sizeof_Elf32_Phdr * ehdr.e_phnum) = true)
    (hoff : ehdr.e_phoff < 2 ^ (w - 1)) :
    (fd.lseek (toOff w ehdr.e_phoff)).pos = ehdr.e_phoff ∧
    (∃ (got : Nat) (rest : List Event), (load_phdr w env fd ehdr).trace =
        .sys_malloc (32 * ehdr.e_phnum) true :: .sys_lseek ehdr.e_phoff ::
          .sys_read (32 * ehdr.e_phnum) got :: rest ∧
        got = min (32 * ehdr.e_phnum) (fd.bytes.length - ehdr.e_phoff)) ∧
    ((∃ (tbl : List Elf32_Phdr) (fd' : File),
        (load_phdr w env fd ehdr).out = .ret (tbl, fd')) ↔
      32 * ehdr.e_phnum ≤ fd.bytes.length - ehdr.e_phoff) ∧
    (32 * ehdr.e_phnum ≤ fd.bytes.length - ehdr.e_phoff →
      (load_phdr w env fd ehdr).out =
        .ret (decode_Phdrs ((fd.bytes.drop ehdr.e_phoff).take (32 * ehdr.e_phnum)) ehdr.e_phnum,
          ⟨fd.bytes, ehdr.e_phoff + 32 * ehdr.e_phnum⟩) ∧
      (decode_Phdrs ((fd.bytes.drop ehdr.e_phoff).take (32 * ehdr.e_phnum))
        ehdr.e_phnum).length = ehdr.e_phnum) ∧
    (¬ 32 * ehdr.e_phnum ≤ fd.bytes.length - ehdr.e_phoff →
      (load_phdr w env fd ehdr).out = .exit 1 ∧
      (load_phdr w env fd ehdr).trace.getLast? = some (.sys_exit 1)) := by
  have h32 : sizeof_Elf32_Phdr = 32 := rfl
  have hpos : (fd.lseek (toOff w ehdr.e_phoff)).pos = ehdr.e_phoff := by
    rw [lseek_representable w fd hoff]
  rw [h32] at hm
  refine ⟨hpos, ?_⟩
  rcases load_phdr_cases w env fd ehdr with ⟨h1, _⟩ | ⟨_, hav, e⟩ | ⟨_, hav, e⟩
  · rw [h32, hm] at h1
    cases h1
  · rw [h32, hpos] at hav e
    rw [e]
    refine ⟨⟨_, _, rfl, by omega⟩, ?_, fun h => absurd h hav, fun _ => ⟨rfl, rfl⟩⟩
    constructor
    · rintro ⟨tbl, fd', h⟩
      cases h
    · intro h
      exact absurd h hav
  · rw [h32, hpos] at hav e
    rw [e]
    refine ⟨⟨_, _, rfl, by omega⟩, ?_, fun _ => ⟨rfl, length_decode_Phdrs _ _⟩,
      fun h => absurd hav h⟩
    constructor
    · intro _
      exact hav
    · intro _
      exact ⟨_, _, rfl⟩

/-- C7 witness: the one 32-byte entry of the `low_entry_file` is read from offset 52. -/
theorem load_phdr_reads_table_witness :
    (generous_env.malloc_ok
        (sizeof_Elf32_Phdr * (decode_Ehdr (low_entry_file.take 52)).e_phnum) = true ∧
      (decode_Ehdr (low_entry_file.take 52)).e_phoff < 2 ^ (32 - 1)) ∧
      (load_phdr 32 generous_env ⟨low_entry_file, 52⟩
          (decode_Ehdr (low_entry_file.take 52))).out =
        .ret ([⟨1, 0, 0x1000, 0x1000, 84, 0x1000, 5, 0x1000⟩], ⟨low_entry_file, 84⟩) :=
  ⟨⟨rfl, by decide⟩,
    ((load_phdr_reads_table 32 generous_env ⟨low_entry_file, 52⟩
      (decode_Ehdr (low_entry_file.take 52)) rfl (by decide)).2.2.2.1 (by decide)).1.trans
      (by decide)⟩

/-- C7 counterexample: the validated header of `wide_entry_file` declares one entry of
`e_phentsize = 64` bytes at offset 52 and the file holds only 32 bytes there; `load_phdr`
asks for 32 bytes, gets them and returns, where `e_phnum * e_phentsize = 64` bytes were
to be read and are not available. -/
theorem load_phdr_ignores_phentsize :
    (load_ehdr generous_env ⟨wide_entry_file, 0⟩).out =
        .ret (decode_Ehdr (wide_entry_file.take 52), ⟨wide_entry_file, 52⟩) ∧
      is_elf32 (decode_Ehdr (wide_entry_file.take 52)) = true ∧
      (decode_Ehdr (wide_entry_file.take 52)).e_phnum *
        (decode_Ehdr (wide_entry_file.take 52)).e_phentsize = 64 ∧
      ¬ (64 ≤ wide_entry_file.length - (decode_Ehdr (wide_entry_file.take 52)).e_phoff) ∧
      load_phdr 32 generous_env ⟨wide_entry_file, 52⟩ (decode_Ehdr (wide_entry_file.take 52)) =
        ⟨[.sys_malloc 32 true, .sys_lseek 52, .sys_read 32 32],
          .ret ([⟨1, 0, 0x3000, 0x3000, 84, 0x1000, 5, 0x1000⟩], ⟨wide_entry_file, 84⟩)⟩ := by
  decide

/-- An offset that a 32-bit `off_t` cannot hold: the header of `far_phoff_file` declares
`e_phoff = 0x80000034`; the unchecked `lseek` fails, the position stays at 52 where
`load_ehdr` left it, and `load_phdr` reads the 32 bytes found there and returns.  With a
64-bit `off_t` the seek succeeds, nothing is left to read and `load_phdr` exits. -/
theorem load_phdr_after_failed_lseek :
    (decode_Ehdr (far_phoff_file.take 52)).e_phoff = 0x80000034 ∧
      load_phdr 32 generous_env ⟨far_phoff_file, 52⟩ (decode_Ehdr (far_phoff_file.take 52)) =
        ⟨[.sys_malloc 32 true, .sys_lseek 0x80000034, .sys_read 32 32],
          .ret ([⟨1, 0, 0x3000, 0x3000, 84, 0x1000, 5, 0x1000⟩], ⟨far_phoff_file, 84⟩)⟩ ∧
      load_phdr 64 generous_env ⟨far_phoff_file, 52⟩ (decode_Ehdr (far_phoff_file.take 52)) =
        ⟨[.sys_malloc 32 true, .sys_lseek 0x80000034, .sys_read 32 0, .sys_exit 1],
          .exit 1⟩ := by
  decide

/-! ## C8: the class check comes before the program headers -/

/-- The class byte of the header read from a file of at least 52 bytes is byte 4 of the file. -/
theorem class_byte_of_read (bytes : List Byte) :
    byteAt (decode_Ehdr (bytes.take sizeof_Elf32_Ehdr)).e_ident EI_CLASS = byteAt bytes EI_CLASS := by
  simp [byteAt, decode_Ehdr, EI_CLASS, sizeof_Elf32_Ehdr, List.getD_eq_getElem?_getD,
    List.getElem?_take]

/-- The function `load_ehdr` on a file of at least 52 bytes whose class byte is not
`ELFCLASS32`: it exits, after the allocation alone or after the read and the `free`. -/
theorem load_ehdr_rejects (env : Env) (bytes : List Byte)
    (hlen : sizeof_Elf32_Ehdr ≤ bytes.length) (hcls : byteAt bytes EI_CLASS ≠ ELFCLASS32) :
    load_ehdr env ⟨bytes, 0⟩ =
      ⟨if env.malloc_ok sizeof_Elf32_Ehdr then
          [.sys_malloc sizeof_Elf32_Ehdr true, .sys_lseek 0,
            .sys_read sizeof_Elf32_Ehdr sizeof_Elf32_Ehdr, .sys_free, .sys_exit 1]
        else [.sys_malloc sizeof_Elf32_Ehdr false, .sys_exit 1], .exit 1⟩ := by
  have hread : ((File.mk bytes 0).read sizeof_Elf32_Ehdr).1 = bytes.take sizeof_Elf32_Ehdr := by
    simp [File.read]
  have hl : (bytes.take sizeof_Elf32_Ehdr).length = sizeof_Elf32_Ehdr := by
    rw [List.length_take]; omega
  have hc : is_elf32 (decode_Ehdr (bytes.take sizeof_Elf32_Ehdr)) = false := by
    unfold is_elf32
    rw [class_byte_of_read]
    simpa using hcls
  cases hm : env.malloc_ok sizeof_Elf32_Ehdr
  · simp [load_ehdr, hm]
  · have hseek : (File.mk bytes 0).lseek 0 = File.mk bytes 0 := by simp [File.lseek]
    simp only [load_ehdr, hm, hseek, hread, hl, hc, Bool.not_true, Bool.false_eq_true,
      if_false, ne_eq, not_true_eq_false, Bool.not_false, if_true]

/-- C8: for every file of at least `sizeof(Elf32_Ehdr)` bytes whose class byte is not
`ELFCLASS32`, `load_and_run_elf` ends in `exit(1)` inside `load_ehdr`: its calls are the
`open` followed by those of `load_ehdr`, none of them the allocation, seek or read of
`load_phdr`, and the whole run is the same for every such file, whatever its
program-header offset, count and table bytes. -/
theorem class_check_precedes_phdr (w : Nat) (env : Env) (bytes : List Byte)
    (hlen : sizeof_Elf32_Ehdr ≤ bytes.length) (hcls : byteAt bytes EI_CLASS ≠ ELFCLASS32) :
    (load_ehdr env ⟨bytes, 0⟩).out = .exit 1 ∧
      load_and_run_elf w env (some bytes) =
        ⟨.sys_open true :: (load_ehdr env ⟨bytes, 0⟩).trace, .exit 1⟩ ∧
      ((load_and_run_elf w env (some bytes)).trace =
          [.sys_open true, .sys_malloc 52 true, .sys_lseek 0, .sys_read 52 52, .sys_free,
            .sys_exit 1] ∨
        (load_and_run_elf w env (some bytes)).trace =
          [.sys_open true, .sys_malloc 52 false, .sys_exit 1]) ∧
      (∀ bytes' : List Byte, sizeof_Elf32_Ehdr ≤ bytes'.length →
        byteAt bytes' EI_CLASS ≠ ELFCLASS32 →
        load_and_run_elf w env (some bytes') = load_and_run_elf w env (some bytes)) := by
  have key : ∀ b : List Byte, sizeof_Elf32_Ehdr ≤ b.length → byteAt b EI_CLASS ≠ ELFCLASS32 →
      load_and_run_elf w env (some b) =
        ⟨.sys_open true :: (load_ehdr env ⟨b, 0⟩).trace, .exit 1⟩ := by
    intro b h1 h2
    have e := load_ehdr_rejects env b h1 h2
    simp only [load_and_run_elf, e]
  have e := load_ehdr_rejects env bytes hlen hcls
  refine ⟨by rw [e], key bytes hlen hcls, ?_, ?_⟩
  · rw [key bytes hlen hcls, e]
    cases env.malloc_ok sizeof_Elf32_Ehdr
    · right; rfl
    · left; rfl
  · intro bytes' h1 h2
    rw [key bytes hlen hcls, key bytes' h1 h2, e, load_ehdr_rejects env bytes' h1 h2]

/-- C8 witness: a 64-byte file of class `ELFCLASS64` is rejected after the header read. -/
theorem class_check_precedes_phdr_witness :
    (sizeof_Elf32_Ehdr ≤ class64_file.length ∧ byteAt class64_file EI_CLASS ≠ ELFCLASS32) ∧
      load_and_run_elf 32 generous_env (some class64_file) =
        ⟨[.sys_open true, .sys_malloc 52 true, .sys_lseek 0, .sys_read 52 52, .sys_free,
          .sys_exit 1], .exit 1⟩ :=
  ⟨by decide,
    (class_check_precedes_phdr 32 generous_env class64_file (by decide) (by decide)).2.1.trans
      (by decide)⟩

/-! ## C2: no failure path in the entry-point resolution -/

/-- The jump target `entry_pt + (e_entry - entry_pt)` is `e_entry` again. -/
theorem add32_sub32 {e : Nat} (v : Nat) (he : e < 2 ^ 32) :
    add32 v (sub32 e v) = e := by
  unfold add32 sub32
  norm_num at he ⊢
  omega

/-- Once both headers are read and the table is not empty, `load_and_run_elf` reaches the
call of `_start`, with an index inside the table and the jump target `e_entry`. -/
theorem load_and_run_elf_transfers (w : Nat) (env : Env) (bytes : List Byte)
    (eh : Elf32_Ehdr) (fd1 : File) (tbl : List Elf32_Phdr) (fd2 : File)
    (h1 : (load_ehdr env ⟨bytes, 0⟩).out = .ret (eh, fd1))
    (h2 : (load_phdr w env fd1 eh).out = .ret (tbl, fd2)) (hn : 0 < eh.e_phnum) :
    ∃ L : Launch, (load_and_run_elf w env (some bytes)).out = .ret L ∧
      L.loader.i < eh.e_phnum ∧ L.entry_virtual = eh.e_entry := by
  have hentry : eh.e_entry < 2 ^ 32 := by
    rw [(load_ehdr_ret h1).1]
    exact le32_lt _ _
  have htbl : tbl.length = eh.e_phnum := by
    rcases load_phdr_cases w env fd1 eh with ⟨_, e⟩ | ⟨_, _, e⟩ | ⟨_, _, e⟩
    · rw [e] at h2; cases h2
    · rw [e] at h2; cases h2
    · rw [e] at h2
      simp only [Outcome.ret.injEq, Prod.mk.injEq] at h2
      rw [← h2.1]
      exact length_decode_Phdrs _ _
  obtain ⟨j, ph, hj, hget, hrun, _, _⟩ :=
    find_entry_pt_run ⟨eh, tbl, fd2, 0, 0, 0, 0⟩ htbl hn
  refine ⟨⟨{ (⟨eh, tbl, fd2, 0, 0, 0, 0⟩ : Loader) with i := j, entry_pt := ph.p_vaddr },
    fragmentation w ph.p_memsz, add32 ph.p_vaddr (sub32 eh.e_entry ph.p_vaddr)⟩, ?_, hj,
    add32_sub32 ph.p_vaddr hentry⟩
  simp only at hget
  simp only [load_and_run_elf, h1, h2, hrun, hget]

/-- C2 (amended): `find_entry_pt` has no failure path.  For every header and every
non-empty segment table of `e_phnum` entries, also one in which no `LOAD` entry has
`p_vaddr ≤ e_entry`, it returns with an index `i < e_phnum` and `entry_pt = phdr[i].p_vaddr`
(with `i = 0` when the table has no `LOAD` entry at all), it never ends in `exit`, and
`load_and_run_elf`, once both headers are read, goes on to call `_start` at `e_entry`. -/
theorem entry_resolution_never_fails (w : Nat) (s : Loader) (ht : s.table_ok)
    (hne : 0 < s.ehdr.e_phnum) :
    (∃ (j : Nat) (ph : Elf32_Phdr), j < s.ehdr.e_phnum ∧ s.phdr[j]? = some ph ∧
      find_entry_pt s = .ret { s with i := j, entry_pt := ph.p_vaddr } ∧
      ((∀ ph' ∈ s.phdr, ph'.p_type ≠ PT_LOAD) → j = 0)) ∧
    (∀ (s' : Loader) (st : Nat), find_entry_pt s' ≠ .exit st) ∧
    (∀ (env : Env) (bytes : List Byte) (eh : Elf32_Ehdr) (fd1 : File)
        (tbl : List Elf32_Phdr) (fd2 : File),
      (load_ehdr env ⟨bytes, 0⟩).out = .ret (eh, fd1) →
      (load_phdr w env fd1 eh).out = .ret (tbl, fd2) → 0 < eh.e_phnum →
      ∃ L : Launch, (load_and_run_elf w env (some bytes)).out = .ret L ∧
        L.loader.i < eh.e_phnum ∧ L.entry_virtual = eh.e_entry) := by
  refine ⟨?_, find_entry_pt_no_exit, load_and_run_elf_transfers w⟩
  obtain ⟨j, ph, h1, h2, h3, _, h5⟩ := find_entry_pt_run s ht hne
  refine ⟨j, ph, h1, h2, h3, ?_⟩
  intro hno
  apply h5
  intro ph' hmem hl
  exact absurd hl (hno ph' hmem)

/-- C2 witness: the example image, a table of two entries, is resolved without an exit. -/
theorem entry_resolution_never_fails_witness :
    (example_loader.table_ok ∧ 0 < example_loader.ehdr.e_phnum) ∧
      ∃ (j : Nat) (ph : Elf32_Phdr), j < example_loader.ehdr.e_phnum ∧
        example_loader.phdr[j]? = some ph ∧
        find_entry_pt example_loader =
          .ret { example_loader with i := j, entry_pt := ph.p_vaddr } ∧
        ((∀ ph' ∈ example_loader.phdr, ph'.p_type ≠ PT_LOAD) → j = 0) :=
  ⟨by decide, (entry_resolution_never_fails 32 example_loader (by decide) (by decide)).1⟩

/-- C2 counterexample: the only `LOAD` segment of `low_entry_file` starts at `0x1000`, above
`e_entry = 0x10`, so no `LOAD` entry has `p_vaddr ≤ e_entry`; yet `find_entry_pt` selects
index 0 and sets `entry_pt = 0x1000`, and `load_and_run_elf` reports no error but goes on
to jump to `0x10`. -/
theorem no_error_without_enclosing_segment :
    (∀ ph ∈ low_entry_loader.phdr,
        ¬ (ph.p_type = PT_LOAD ∧ ph.p_vaddr ≤ low_entry_loader.ehdr.e_entry)) ∧
      find_entry_pt low_entry_loader =
        .ret { low_entry_loader with i := 0, entry_pt := 0x1000 } ∧
      (load_and_run_elf 32 generous_env (some low_entry_file)).trace =
        [.sys_open true, .sys_malloc 52 true, .sys_lseek 0, .sys_read 52 52,
          .sys_malloc 32 true, .sys_lseek 52, .sys_read 32 32] ∧
      (load_and_run_elf 32 generous_env (some low_entry_file)).out =
        .ret ⟨⟨decode_Ehdr (low_entry_file.take 52),
            [⟨1, 0, 0x1000, 0x1000, 84, 0x1000, 5, 0x1000⟩], ⟨low_entry_file, 84⟩,
            0, 0x1000, 0, 0⟩, 0, 0x10⟩ := by
  decide

end SmartLoader
